import Mathlib

/-!
# Verification of the sprite-shape pipeline (`src/lib.rs`, `src/glb.rs`)

A shallow embedding of the sprite-shape repository: the "marching
triangles" contour extractor, the density-grid builder, the silhouette
normal table, the mesh assembler (`generate_mesh`), the flood-fill
texture repairer (`fix_texture`), and the GLB container framing
(`glb.rs`).  `f32` arithmetic is embedded as exact arithmetic over `ℚ`;
machine-integer operations (`usize` division, truncating subtraction)
keep their Rust semantics; Rust panics are embedded as `Option`/`Except`
failure values.
-/

namespace SpriteShape

/-- 2-D rational vector, embedding geng's `vec2<f32>`. -/
abbrev Vec2 := ℚ × ℚ

/-- 3-D rational vector, embedding geng's `vec3<f32>`. -/
abbrev Vec3 := ℚ × ℚ × ℚ

/-- Componentwise vector addition. -/
def v2add (a b : Vec2) : Vec2 := (a.1 + b.1, a.2 + b.2)

/-- Componentwise vector subtraction. -/
def v2sub (a b : Vec2) : Vec2 := (a.1 - b.1, a.2 - b.2)

/-- Scalar multiple of a 2-D vector. -/
def v2scale (t : ℚ) (a : Vec2) : Vec2 := (t * a.1, t * a.2)

/-- geng's `vec2::rotate_90`: counterclockwise quarter turn. -/
def rot90 (a : Vec2) : Vec2 := (-a.2, a.1)

/-- Cast an integer grid coordinate to a rational position
(`ia.map(|x| x as f32)` in `marching_triangles`). -/
def toQ2 (p : ℤ × ℤ) : Vec2 := ((p.1 : ℚ), (p.2 : ℚ))

/-- `struct MarchVertex { pos: vec2<f32>, value: f32 }` from `lib.rs`. -/
structure MarchVertex where
  pos : Vec2
  value : ℚ
deriving DecidableEq, Repr

/-- `type MarchFace = [MarchVertex; 3]` from `lib.rs`. -/
abbrev MarchFace := MarchVertex × MarchVertex × MarchVertex

/-- Lexicographic order on raw integer 2-D coordinates: the Rust
comparison `**ia < **ib` compares the backing `[i32; 2]` arrays
lexicographically (x first, then y). -/
def lexLt (p q : ℤ × ℤ) : Prop := p.1 < q.1 ∨ (p.1 = q.1 ∧ p.2 < q.2)

instance : DecidablePred fun pq : (ℤ × ℤ) × (ℤ × ℤ) => lexLt pq.1 pq.2 := by
  intro pq; unfold lexLt; infer_instance

instance (p q : ℤ × ℤ) : Decidable (lexLt p q) := by
  unfold lexLt; infer_instance

/-- The threshold-crossing block of `marching_triangles` (lib.rs lines
38-51): reorder the segment endpoints so the lexicographically smaller
integer coordinate is the interpolation origin, compute
`t = (iso - va) / (vb - va)`, and emit the interpolated vertex exactly
when `0 < t < 1`.  (Rational division by zero returns 0, so a constant
segment emits nothing, matching the `f32` NaN/infinity comparisons which
also emit nothing.) -/
def interpCore (a b : Vec2) (va vb iso : ℚ) : Option MarchVertex :=
  if 0 < (iso - va) / (vb - va) ∧ (iso - va) / (vb - va) < 1 then
    some { pos := v2add a (v2scale ((iso - va) / (vb - va)) (v2sub b a)), value := iso }
  else
    none

/-- The swap wrapper of lib.rs lines 39-43: the endpoint with the
lexicographically smaller raw integer coordinate becomes the
interpolation origin. -/
def interpOnSegment (ia ib : ℤ × ℤ) (va vb iso : ℚ) : Option MarchVertex :=
  if lexLt ia ib then interpCore (toQ2 ia) (toQ2 ib) va vb iso
  else interpCore (toQ2 ib) (toQ2 ia) vb va iso

/-- One iteration of the `circular_tuple_windows` loop body in the
`march` closure: the corner vertex `a` when `va ≥ iso`, the interpolated
threshold vertex, and the corner vertex `b` when `vb ≥ iso`.  The
density callback is fallible (`none` embeds a Rust index-out-of-bounds
panic). -/
def processPair (f : ℤ × ℤ → Option ℚ) (iso : ℚ) (ia ib : ℤ × ℤ) :
    Option (List MarchVertex) := do
  let va ← f ia
  let vb ← f ib
  pure ((if iso ≤ va then [({ pos := toQ2 ia, value := va } : MarchVertex)] else []) ++
    (interpOnSegment ia ib va vb iso).toList ++
    (if iso ≤ vb then [({ pos := toQ2 ib, value := vb } : MarchVertex)] else []))

/-- `circular_tuple_windows` over a list: consecutive pairs, wrapping
around from the last element to the first. -/
def cyclicPairs {α : Type} (l : List α) : List (α × α) :=
  l.zip (l.rotateLeft 1)

/-- The fan triangulation at the end of the `march` closure: if at least
3 vertices were collected, fan them from the first vertex. -/
def fanTriangles (current : List MarchVertex) : List MarchFace :=
  if 3 ≤ current.length then
    match current with
    | [] => []
    | o :: rest => (rest.zip rest.tail).map fun ab => (o, ab.1, ab.2)
  else []

/-- The `march` closure applied to the four corners of one grid cell. -/
def marchCell (f : ℤ × ℤ → Option ℚ) (iso : ℚ) (corners : List (ℤ × ℤ)) :
    Option (List MarchFace) := do
  let parts ← (cyclicPairs corners).mapM fun p => processPair f iso p.1 p.2
  pure (fanTriangles parts.flatten)

/-- Integer axis-aligned box, embedding `Aabb2<i32>`. -/
structure Aabb2z where
  min : ℤ × ℤ
  max : ℤ × ℤ
deriving DecidableEq, Repr

/-- The Rust half-open integer range `a..b` as a list. -/
def rangeZ (a b : ℤ) : List ℤ :=
  (List.range (b - a).toNat).map fun i : ℕ => a + (i : ℤ)

/-- `marching_triangles` from `lib.rs`: march every unit cell of `bb`
(x-major traversal), concatenating each cell's fan triangles.  The
density callback may fail (embedding a panic), in which case the whole
extraction fails. -/
def marchingTriangles (bb : Aabb2z) (f : ℤ × ℤ → Option ℚ) (iso : ℚ) :
    Option (List MarchFace) :=
  (rangeZ bb.min.1 bb.max.1).foldlM
    (fun acc x =>
      (rangeZ bb.min.2 bb.max.2).foldlM
        (fun acc2 y => do
          let tris ← marchCell f iso [(x, y), (x + 1, y), (x + 1, y + 1), (x, y + 1)]
          pure (acc2 ++ tris))
        acc)
    []

/-- A segment of the density field strictly crosses the threshold. -/
def strictCross (va vb iso : ℚ) : Prop :=
  (va < iso ∧ iso < vb) ∨ (vb < iso ∧ iso < va)

end SpriteShape

namespace SpriteShape

lemma lexLt_asymm {p q : ℤ × ℤ} (h : lexLt p q) : ¬ lexLt q p := by
  rcases h with h | ⟨h1, h2⟩ <;> rintro (h3 | ⟨h4, h5⟩) <;> omega

lemma lexLt_total {p q : ℤ × ℤ} (h : p ≠ q) : lexLt p q ∨ lexLt q p := by
  rcases p with ⟨px, py⟩
  rcases q with ⟨qx, qy⟩
  have h2 : ¬(px = qx ∧ py = qy) := by
    intro hc
    exact h (by simp [hc.1, hc.2])
  unfold lexLt
  dsimp only
  omega

lemma strictCross_comm (va vb iso : ℚ) : strictCross va vb iso ↔ strictCross vb va iso := by
  unfold strictCross; tauto

/-- The interpolation parameter lies strictly inside `(0,1)` exactly when
the segment's densities strictly cross the threshold. -/
lemma interp_t_mem_iff (va vb iso : ℚ) :
    (0 < (iso - va) / (vb - va) ∧ (iso - va) / (vb - va) < 1) ↔ strictCross va vb iso := by
  rcases lt_trichotomy va vb with h | h | h
  · have hd : 0 < vb - va := by linarith
    rw [div_pos_iff, div_lt_one hd]
    unfold strictCross
    constructor
    · rintro ⟨h0 | h0, h1⟩
      · exact Or.inl ⟨by linarith [h0.1], by linarith⟩
      · exact absurd hd (by linarith [h0.2])
    · rintro (⟨h1, h2⟩ | ⟨h1, h2⟩)
      · exact ⟨Or.inl ⟨by linarith, hd⟩, by linarith⟩
      · exact absurd h (by linarith)
  · subst h
    simp only [sub_self, div_zero, lt_irrefl, false_and, false_iff]
    unfold strictCross
    rintro (⟨h1, h2⟩ | ⟨h1, h2⟩) <;> linarith
  · have hrw : (iso - va) / (vb - va) = (va - iso) / (va - vb) := by
      rw [show iso - va = -(va - iso) by ring, show vb - va = -(va - vb) by ring,
        neg_div_neg_eq]
    have hd : 0 < va - vb := by linarith
    rw [hrw, div_pos_iff, div_lt_one hd]
    unfold strictCross
    constructor
    · rintro ⟨h0 | h0, h1⟩
      · exact Or.inr ⟨by linarith, by linarith [h0.1]⟩
      · exact absurd hd (by linarith [h0.2])
    · rintro (⟨h1, h2⟩ | ⟨h1, h2⟩)
      · exact absurd h (by linarith)
      · exact ⟨Or.inl ⟨by linarith, hd⟩, by linarith⟩

lemma interpCore_isSome_iff (a b : Vec2) (va vb iso : ℚ) :
    (interpCore a b va vb iso).isSome ↔ strictCross va vb iso := by
  unfold interpCore
  rw [← interp_t_mem_iff va vb iso]
  split
  · rename_i hc
    simp [hc]
  · rename_i hc
    simp [hc]

lemma interpCore_value (a b : Vec2) (va vb iso : ℚ) (v : MarchVertex)
    (h : interpCore a b va vb iso = some v) : v.value = iso := by
  unfold interpCore at h
  split at h
  · cases h
    rfl
  · exact absurd h (by simp)

lemma interpCore_self (a : Vec2) (va vb iso : ℚ) :
    interpCore a a va vb iso = interpCore a a vb va iso := by
  unfold interpCore
  have hpos : ∀ t : ℚ, v2add a (v2scale t (v2sub a a)) = a := by
    intro t
    simp [v2add, v2scale, v2sub]
  rw [hpos, hpos]
  exact if_congr
    ((interp_t_mem_iff va vb iso).trans
      ((strictCross_comm va vb iso).trans (interp_t_mem_iff vb va iso).symm))
    rfl rfl

lemma interpOnSegment_isSome_iff (ia ib : ℤ × ℤ) (va vb iso : ℚ) :
    (interpOnSegment ia ib va vb iso).isSome ↔ strictCross va vb iso := by
  unfold interpOnSegment
  split
  · exact interpCore_isSome_iff _ _ va vb iso
  · exact (interpCore_isSome_iff _ _ vb va iso).trans (strictCross_comm vb va iso)

lemma interpOnSegment_value (ia ib : ℤ × ℤ) (va vb iso : ℚ) (v : MarchVertex)
    (h : interpOnSegment ia ib va vb iso = some v) : v.value = iso := by
  unfold interpOnSegment at h
  split at h
  · exact interpCore_value _ _ _ _ _ _ h
  · exact interpCore_value _ _ _ _ _ _ h

/-- Interpolation does not depend on the traversal direction of the
segment: both orders produce the identical optional vertex. -/
lemma interpOnSegment_comm (ia ib : ℤ × ℤ) (va vb iso : ℚ) :
    interpOnSegment ia ib va vb iso = interpOnSegment ib ia vb va iso := by
  by_cases heq : ia = ib
  · subst heq
    have hnl : ¬ lexLt ia ia := fun h => lexLt_asymm h h
    unfold interpOnSegment
    rw [if_neg hnl, if_neg hnl]
    exact interpCore_self (toQ2 ia) vb va iso
  · rcases lexLt_total heq with h | h
    · unfold interpOnSegment
      rw [if_pos h, if_neg (lexLt_asymm h)]
    · unfold interpOnSegment
      rw [if_neg (lexLt_asymm h), if_pos h]

end SpriteShape

namespace SpriteShape

/-- C5: for every pair of adjacent cell corners `(a,b)` scanned by the
contour extractor, an interpolated vertex with density exactly the
threshold is emitted iff the segment's densities strictly cross the
threshold, and the interpolation is computed taking the
lexicographically smaller integer coordinate as origin, so the
interpolated result is identical for both traversal directions of a
shared edge. -/
theorem claim_C5 (ia ib : ℤ × ℤ) (va vb iso : ℚ) :
    interpOnSegment ia ib va vb iso = interpOnSegment ib ia vb va iso ∧
    ((∃ v, interpOnSegment ia ib va vb iso = some v ∧ v.value = iso) ↔
      strictCross va vb iso) ∧
    (lexLt ia ib →
      interpOnSegment ia ib va vb iso = interpCore (toQ2 ia) (toQ2 ib) va vb iso) ∧
    (lexLt ib ia →
      interpOnSegment ia ib va vb iso = interpCore (toQ2 ib) (toQ2 ia) vb va iso) := by
  refine ⟨interpOnSegment_comm ia ib va vb iso, ?_, ?_, ?_⟩
  · constructor
    · rintro ⟨v, hv, _⟩
      exact (interpOnSegment_isSome_iff ia ib va vb iso).mp (by rw [hv]; rfl)
    · intro hc
      obtain ⟨v, hv⟩ := Option.isSome_iff_exists.mp
        ((interpOnSegment_isSome_iff ia ib va vb iso).mpr hc)
      exact ⟨v, hv, interpOnSegment_value ia ib va vb iso v hv⟩
  · intro h
    unfold interpOnSegment
    rw [if_pos h]
  · intro h
    unfold interpOnSegment
    rw [if_neg (lexLt_asymm h)]

/-- Witness for C5: concrete segment `(0,0)-(1,0)` with densities `0`
and `1` against threshold `1/2`, in both traversal orders. -/
theorem claim_C5_witness :
    interpOnSegment ((0, 0) : ℤ × ℤ) ((1, 0) : ℤ × ℤ) 0 1 (1 / 2) =
      interpCore (toQ2 ((0, 0) : ℤ × ℤ)) (toQ2 ((1, 0) : ℤ × ℤ)) 0 1 (1 / 2) ∧
    interpOnSegment ((1, 0) : ℤ × ℤ) ((0, 0) : ℤ × ℤ) 1 0 (1 / 2) =
      interpCore (toQ2 ((0, 0) : ℤ × ℤ)) (toQ2 ((1, 0) : ℤ × ℤ)) 0 1 (1 / 2) :=
  ⟨(claim_C5 ((0, 0) : ℤ × ℤ) ((1, 0) : ℤ × ℤ) 0 1 (1 / 2)).2.2.1 (by decide),
   (claim_C5 ((1, 0) : ℤ × ℤ) ((0, 0) : ℤ × ℤ) 1 0 (1 / 2)).2.2.2 (by decide)⟩

end SpriteShape

namespace SpriteShape

/-- An RGBA8 pixel (`Rgba<u8>` read from the framebuffer). -/
structure Rgba8 where
  r : ℕ
  g : ℕ
  b : ℕ
  a : ℕ
deriving DecidableEq, Repr

/-- An in-memory RGBA image: `texture.size()` and `data.get(x, y)`. -/
structure Img where
  w : ℕ
  h : ℕ
  pix : ℕ → ℕ → Rgba8

/-- Number of grid columns: `(texture.size().x + cell_size - 1) / cell_size`. -/
def gridW (img : Img) (cs : ℕ) : ℕ := (img.w + cs - 1) / cs

/-- Number of grid rows: `(texture.size().y + cell_size - 1) / cell_size`. -/
def gridH (img : Img) (cs : ℕ) : ℕ := (img.h + cs - 1) / cs

/-- Accumulation loop of `generate_mesh` (lib.rs lines 93-99): the sum
of `alpha / 255` over all pixels whose cell index is `(cx, cy)`. -/
def cellRaw (img : Img) (cs cx cy : ℕ) : ℚ :=
  ∑ x ∈ Finset.range img.w, ∑ y ∈ Finset.range img.h,
    if x / cs = cx ∧ y / cs = cy then ((img.pix x y).a : ℚ) / 255 else 0

/-- The divisor from lib.rs lines 103-104:
`min(cell_size, w - x*cell_size) * min(cell_size, h - y*cell_size)`. -/
def cellPixelCount (img : Img) (cs cx cy : ℕ) : ℕ :=
  min cs (img.w - cx * cs) * min cs (img.h - cy * cs)

/-- The normalized cell value (lines 101-107). -/
def cellVal (img : Img) (cs cx cy : ℕ) : ℚ :=
  cellRaw img cs cx cy / (cellPixelCount img cs cx cy : ℚ)

/-- The `cells` nested vector of `generate_mesh`. -/
def cellsList (img : Img) (cs : ℕ) : List (List ℚ) :=
  (List.range (gridW img cs)).map fun cx =>
    (List.range (gridH img cs)).map fun cy => cellVal img cs cx cy

/-- The set of image pixels spatially inside cell `(cx, cy)`: the
`cell_size × cell_size` block clipped to the image bounds.  (This is the
specification-side notion the cell average is compared against.) -/
def cellPixels (img : Img) (cs cx cy : ℕ) : Finset (ℕ × ℕ) :=
  (Finset.range img.w ×ˢ Finset.range img.h).filter fun p =>
    (cx * cs ≤ p.1 ∧ p.1 < (cx + 1) * cs) ∧ (cy * cs ≤ p.2 ∧ p.2 < (cy + 1) * cs)

lemma div_eq_iff_cell (x cs cx : ℕ) (hcs : 0 < cs) :
    x / cs = cx ↔ cx * cs ≤ x ∧ x < (cx + 1) * cs := by
  constructor
  · rintro rfl
    refine ⟨Nat.div_mul_le_self x cs, ?_⟩
    have := Nat.lt_mul_div_succ x hcs
    rw [Nat.mul_comm] at this
    exact this
  · rintro ⟨h1, h2⟩
    exact Nat.div_eq_of_lt_le h1 h2

lemma cellRaw_eq_sum (img : Img) (cs cx cy : ℕ) (hcs : 0 < cs) :
    cellRaw img cs cx cy =
      ∑ p ∈ cellPixels img cs cx cy, ((img.pix p.1 p.2).a : ℚ) / 255 := by
  unfold cellRaw cellPixels
  rw [Finset.sum_filter, Finset.sum_product]
  refine Finset.sum_congr rfl fun x _ => Finset.sum_congr rfl fun y _ => ?_
  dsimp only
  refine if_congr ?_ rfl rfl
  rw [div_eq_iff_cell x cs cx hcs, div_eq_iff_cell y cs cy hcs]

lemma filter_range_band (W A cs : ℕ) :
    (Finset.range W).filter (fun x => A ≤ x ∧ x < A + cs) = Finset.Ico A (min (A + cs) W) := by
  ext a
  simp only [Finset.mem_filter, Finset.mem_range, Finset.mem_Ico, lt_min_iff]
  omega

lemma cell_lt_dim {W cs cx : ℕ} (hcs : 0 < cs) (h : cx < (W + cs - 1) / cs) :
    cx * cs < W := by
  have h1 : (cx + 1) * cs ≤ W + cs - 1 := (Nat.le_div_iff_mul_le hcs).mp h
  rw [Nat.succ_mul] at h1
  omega

lemma cellPixels_card (img : Img) (cs cx cy : ℕ) (hcs : 0 < cs)
    (hx : cx < gridW img cs) (hy : cy < gridH img cs) :
    (cellPixels img cs cx cy).card = cellPixelCount img cs cx cy := by
  unfold cellPixels cellPixelCount
  rw [Finset.filter_product (fun x => cx * cs ≤ x ∧ x < (cx + 1) * cs)
    (fun y => cy * cs ≤ y ∧ y < (cy + 1) * cs), Finset.card_product]
  have hxlt : cx * cs < img.w := cell_lt_dim hcs hx
  have hylt : cy * cs < img.h := cell_lt_dim hcs hy
  have hbx : (cx + 1) * cs = cx * cs + cs := Nat.succ_mul cx cs
  have hby : (cy + 1) * cs = cy * cs + cs := Nat.succ_mul cy cs
  rw [hbx, hby, filter_range_band, filter_range_band, Nat.card_Ico, Nat.card_Ico]
  have e1 : min (cx * cs + cs) img.w - cx * cs = min cs (img.w - cx * cs) := by omega
  have e2 : min (cy * cs + cs) img.h - cy * cs = min cs (img.h - cy * cs) := by omega
  rw [e1, e2]

lemma div_ceil_eq (W cs : ℕ) (hcs : 0 < cs) :
    (W + cs - 1) / cs = ⌈(W : ℚ) / (cs : ℚ)⌉₊ := by
  rcases Nat.eq_zero_or_pos W with hW | hW
  · subst hW
    rw [Nat.div_eq_of_lt (by omega)]
    simp
  · have hcsq : (0 : ℚ) < (cs : ℚ) := by exact_mod_cast hcs
    have hn1 : 1 ≤ (W + cs - 1) / cs := (Nat.le_div_iff_mul_le hcs).mpr (by omega)
    have hub : ((W + cs - 1) / cs) * cs ≤ W + cs - 1 := Nat.div_mul_le_self _ _
    have hlb : W + cs - 1 < ((W + cs - 1) / cs + 1) * cs := by
      have := Nat.lt_mul_div_succ (W + cs - 1) hcs
      rw [Nat.mul_comm] at this
      exact this
    symm
    rw [Nat.ceil_eq_iff (by omega : (W + cs - 1) / cs ≠ 0)]
    constructor
    · rw [lt_div_iff₀ hcsq]
      have hnat : ((W + cs - 1) / cs - 1) * cs < W := by
        rw [Nat.sub_one_mul]
        rw [Nat.succ_mul] at hlb
        omega
      exact_mod_cast hnat
    · rw [div_le_iff₀ hcsq]
      have hnat : W ≤ ((W + cs - 1) / cs) * cs := by
        rw [Nat.succ_mul] at hlb
        omega
      exact_mod_cast hnat

/-- C6: the grid has `⌈dim / cell_size⌉` cells per axis, and each cell's
value is the average of `alpha/255` over the pixels actually inside that
cell — the divisor is the exact pixel count of the (possibly clipped)
block, not the nominal `cell_size²`. -/
theorem claim_C6 (img : Img) (cs : ℕ) (hcs : 0 < cs) :
    (cellsList img cs).length = ⌈(img.w : ℚ) / (cs : ℚ)⌉₊ ∧
    (∀ col ∈ cellsList img cs, col.length = ⌈(img.h : ℚ) / (cs : ℚ)⌉₊) ∧
    ∀ cx cy, cx < gridW img cs → cy < gridH img cs →
      cellVal img cs cx cy =
        (∑ p ∈ cellPixels img cs cx cy, ((img.pix p.1 p.2).a : ℚ) / 255) /
          ((cellPixels img cs cx cy).card : ℚ) := by
  refine ⟨?_, ?_, ?_⟩
  · simp only [cellsList, List.length_map, List.length_range]
    exact div_ceil_eq img.w cs hcs
  · intro col hcol
    simp only [cellsList, List.mem_map] at hcol
    obtain ⟨cx, _, rfl⟩ := hcol
    simp only [List.length_map, List.length_range]
    exact div_ceil_eq img.h cs hcs
  · intro cx cy hx hy
    rw [cellVal, cellRaw_eq_sum img cs cx cy hcs, cellPixels_card img cs cx cy hcs hx hy]

/-- Witness for C6: the 3×3 all-opaque image with cell size 2; the
corner cell `(1,1)` contains a single pixel. -/
theorem claim_C6_witness :
    (0 : ℕ) < 2 ∧
    cellVal ⟨3, 3, fun _ _ => ⟨255, 255, 255, 255⟩⟩ 2 1 1 =
      (∑ p ∈ cellPixels ⟨3, 3, fun _ _ => ⟨255, 255, 255, 255⟩⟩ 2 1 1,
          (((Img.mk 3 3 fun _ _ => ⟨255, 255, 255, 255⟩).pix p.1 p.2).a : ℚ) / 255) /
        ((cellPixels ⟨3, 3, fun _ _ => ⟨255, 255, 255, 255⟩⟩ 2 1 1).card : ℚ) :=
  ⟨by norm_num,
    (claim_C6 ⟨3, 3, fun _ _ => ⟨255, 255, 255, 255⟩⟩ 2 (by norm_num)).2.2 1 1
      (by decide) (by decide)⟩

end SpriteShape

namespace SpriteShape

/-- Association-list model of `BTreeMap`: one entry per key, `insert`
overwrites in place. -/
def btreeInsert {K V : Type} [DecidableEq K] (m : List (K × V)) (k : K) (v : V) :
    List (K × V) :=
  match m with
  | [] => [(k, v)]
  | (k2, v2) :: rest => if k2 = k then (k, v) :: rest else (k2, v2) :: btreeInsert rest k v

/-- `BTreeMap::from_iter`: insert every pair in encounter order. -/
def btreeFromList {K V : Type} [DecidableEq K] (l : List (K × V)) : List (K × V) :=
  l.foldl (fun m p => btreeInsert m p.1 p.2) []

/-- `BTreeMap::get`. -/
def btreeLookup {K V : Type} [DecidableEq K] (k : K) (m : List (K × V)) : Option V :=
  (m.find? fun p => decide (p.1 = k)).map Prod.snd

lemma btreeLookup_insert_eq {K V : Type} [DecidableEq K] (m : List (K × V)) (k : K) (v : V) :
    btreeLookup k (btreeInsert m k v) = some v := by
  induction m with
  | nil => simp [btreeInsert, btreeLookup, List.find?]
  | cons p rest ih =>
    obtain ⟨k2, v2⟩ := p
    unfold btreeInsert
    by_cases h : k2 = k
    · simp [h, btreeLookup, List.find?]
    · simp only [if_neg h]
      unfold btreeLookup at ih ⊢
      simp [List.find?, h, ih]

lemma btreeLookup_insert_ne {K V : Type} [DecidableEq K] (m : List (K × V)) (k ki : K)
    (v : V) (h : ki ≠ k) : btreeLookup k (btreeInsert m ki v) = btreeLookup k m := by
  induction m with
  | nil => simp [btreeInsert, btreeLookup, List.find?, h]
  | cons p rest ih =>
    obtain ⟨k2, v2⟩ := p
    unfold btreeInsert
    by_cases h2 : k2 = ki
    · subst h2
      simp [btreeLookup, List.find?, h]
    · simp only [if_neg h2]
      unfold btreeLookup at ih ⊢
      by_cases h3 : k2 = k
      · simp [List.find?, h3]
      · simp [List.find?, h3, ih]

lemma btreeFromList_append {K V : Type} [DecidableEq K] (l : List (K × V)) (p : K × V) :
    btreeFromList (l ++ [p]) = btreeInsert (btreeFromList l) p.1 p.2 := by
  unfold btreeFromList
  rw [List.foldl_append]
  rfl

/-- `BTreeMap` built from a pair list: lookup returns the value of the
last pair in encounter order carrying that key. -/
lemma btreeLookup_fromList {K V : Type} [DecidableEq K] (l : List (K × V)) (k : K) :
    btreeLookup k (btreeFromList l) =
      (l.reverse.find? fun p => decide (p.1 = k)).map Prod.snd := by
  induction l using List.reverseRecOn with
  | nil => simp [btreeFromList, btreeLookup]
  | append_singleton l p ih =>
    rw [btreeFromList_append, List.reverse_append]
    by_cases h : p.1 = k
    · rw [show p.1 = k from h, btreeLookup_insert_eq]
      simp [List.find?, h]
    · rw [btreeLookup_insert_ne _ _ _ _ h, ih]
      simp [List.find?, h]

/-- The triple as a vertex list (the 3-array iterated in order). -/
def faceList (f : MarchFace) : List MarchVertex := [f.1, f.2.1, f.2.2]

/-- The silhouette-edge pair stream of lib.rs lines 117-129: for every
face, every cyclically adjacent vertex pair with both densities exactly
`iso` contributes the rotated, normalized edge direction under both
endpoint positions.  `nrm` abstracts `normalize_or_zero` (an `f32`
square root has no exact rational embedding; no claim depends on its
value). -/
def normalPairs (nrm : Vec2 → Vec2) (iso : ℚ) (faces : List MarchFace) :
    List (Vec2 × Vec2) :=
  faces.flatMap fun face =>
    (cyclicPairs (faceList face)).flatMap fun ab =>
      if ab.1.value = iso ∧ ab.2.value = iso then
        [(ab.1.pos, nrm (rot90 (v2sub ab.2.pos ab.1.pos))),
         (ab.2.pos, nrm (rot90 (v2sub ab.2.pos ab.1.pos)))]
      else []

/-- The `normals` BTreeMap of `generate_mesh`. -/
def normalsTable (nrm : Vec2 → Vec2) (iso : ℚ) (faces : List MarchFace) :
    List (Vec2 × Vec2) :=
  btreeFromList (normalPairs nrm iso faces)

lemma flatMap_chunk {α β : Type} (f : α → List β) {l : List α} {a : α} (h : a ∈ l) :
    f a <:+: l.flatMap f := by
  obtain ⟨s, t, rfl⟩ := List.append_of_mem h
  rw [List.flatMap_append, List.flatMap_cons]
  exact ⟨s.flatMap f, t.flatMap f, by simp⟩

end SpriteShape

namespace SpriteShape

/-- The identity in place of `normalize_or_zero`, used to instantiate
witnesses (no claim depends on the normalization's value). -/
def idNrm : Vec2 → Vec2 := fun v => v

/-- C7: the Normal Table records, for every face and every cyclic
adjacent pair `(a,b)` with both densities exactly `iso`, the normal
`nrm (rot90 (b.pos - a.pos))` under both `a.pos` and `b.pos` (the two
entries appear contiguously in encounter order), and lookup returns the
last-written entry for a key — no averaging. -/
theorem claim_C7 (nrm : Vec2 → Vec2) (iso : ℚ) (faces : List MarchFace) :
    (∀ k, btreeLookup k (normalsTable nrm iso faces) =
      ((normalPairs nrm iso faces).reverse.find? fun p => decide (p.1 = k)).map Prod.snd) ∧
    ∀ face ∈ faces, ∀ ab ∈ cyclicPairs (faceList face),
      ab.1.value = iso → ab.2.value = iso →
      [(ab.1.pos, nrm (rot90 (v2sub ab.2.pos ab.1.pos))),
       (ab.2.pos, nrm (rot90 (v2sub ab.2.pos ab.1.pos)))] <:+: normalPairs nrm iso faces := by
  constructor
  · intro k
    exact btreeLookup_fromList _ k
  · intro face hface ab hab h1 h2
    unfold normalPairs
    refine List.IsInfix.trans ?_ (flatMap_chunk _ hface)
    have h3 := flatMap_chunk
      (fun ab : MarchVertex × MarchVertex =>
        if ab.1.value = iso ∧ ab.2.value = iso then
          [(ab.1.pos, nrm (rot90 (v2sub ab.2.pos ab.1.pos))),
           (ab.2.pos, nrm (rot90 (v2sub ab.2.pos ab.1.pos)))]
        else []) hab
    simpa [h1, h2] using h3

/-- Witness for C7: a single face whose first edge has both endpoints
exactly at the threshold. -/
theorem claim_C7_witness :
    [((((0 : ℚ), (0 : ℚ)) : Vec2), idNrm (rot90 (v2sub ((1 : ℚ), (0 : ℚ)) ((0 : ℚ), (0 : ℚ))))),
     ((((1 : ℚ), (0 : ℚ)) : Vec2), idNrm (rot90 (v2sub ((1 : ℚ), (0 : ℚ)) ((0 : ℚ), (0 : ℚ)))))]
      <:+: normalPairs idNrm (1 / 2)
        [(⟨((0 : ℚ), (0 : ℚ)), 1 / 2⟩, ⟨((1 : ℚ), (0 : ℚ)), 1 / 2⟩,
          ⟨((0 : ℚ), (1 : ℚ)), 1⟩)] :=
  (claim_C7 idNrm (1 / 2) _).2
    (⟨((0 : ℚ), (0 : ℚ)), 1 / 2⟩, ⟨((1 : ℚ), (0 : ℚ)), 1 / 2⟩, ⟨((0 : ℚ), (1 : ℚ)), 1⟩)
    (by simp)
    (⟨((0 : ℚ), (0 : ℚ)), 1 / 2⟩, ⟨((1 : ℚ), (0 : ℚ)), 1 / 2⟩)
    (by simp [cyclicPairs, faceList, List.rotateLeft]) rfl rfl

end SpriteShape

namespace SpriteShape

/-- `enum ScalingMode` from `lib.rs`. -/
inductive ScalingMode where
  | FixedHeight (height : ℚ)
deriving DecidableEq, Repr

/-- `struct Options` from `lib.rs`. -/
structure Options where
  cell_size : ℕ
  iso : ℚ
  normal_uv_offset : ℚ
  thickness : ℚ
  scaling : ScalingMode
  front_face : Bool
  back_face : Bool
deriving DecidableEq, Repr

/-- `Options::default()` from `lib.rs`. -/
def defaultOptions : Options :=
  { cell_size := 10
    iso := 1 / 2
    normal_uv_offset := 2
    thickness := 1 / 10
    scaling := .FixedHeight 1
    front_face := true
    back_face := true }

/-- `#[derive(ugli::Vertex)] struct Vertex` from `lib.rs`. -/
structure Vertex where
  a_pos : Vec3
  a_uv : Vec2
  a_normal : Vec3
deriving DecidableEq, Repr

/-- The chained `front`, `back`, `side` vertex streams of
`generate_mesh` (lib.rs lines 131-163), before the per-vertex maps: each
element is a march vertex together with its raw `z` (`1` front, `-1`
back, and the six-vertex two-triangle strip per silhouette edge). -/
def assemble (o : Options) (faces : List MarchFace) : List (MarchVertex × ℚ) :=
  (if o.front_face then
    faces.flatMap (fun f => [(f.1, (1 : ℚ)), (f.2.1, 1), (f.2.2, 1)])
  else []) ++
  (if o.back_face then
    faces.flatMap (fun f => [(f.2.2, (-1 : ℚ)), (f.2.1, -1), (f.1, -1)])
  else []) ++
  faces.flatMap (fun f =>
    (cyclicPairs (faceList f)).flatMap fun ab =>
      if ab.1.value = o.iso ∧ ab.2.value = o.iso then
        [(ab.1, (1 : ℚ)), (ab.1, -1), (ab.2, -1), (ab.1, 1), (ab.2, -1), (ab.2, 1)]
      else [])

/-- The per-vertex pipeline of `generate_mesh` (lib.rs lines 163-186):
normal lookup, pixel position, UV with normal offset, clip-space
position, thickness scaling of `z`, and the fixed-height scaling of `x`
(by `height/2 × aspect`) and `y` (by `height/2`). -/
def emitVertex (normals : List (Vec2 × Vec2)) (o : Options) (img : Img)
    (vz : MarchVertex × ℚ) : Vertex :=
  let v := vz.1
  let z := vz.2
  let normal? := btreeLookup v.pos normals
  let pixel_pos : Vec2 :=
    ((v.pos.1 + 1 / 2) * (o.cell_size : ℚ), (v.pos.2 + 1 / 2) * (o.cell_size : ℚ))
  let offset := normal?.getD ((0 : ℚ), (0 : ℚ))
  let uv : Vec2 :=
    ((pixel_pos.1 + offset.1 * o.normal_uv_offset) / (img.w : ℚ),
     (pixel_pos.2 + offset.2 * o.normal_uv_offset) / (img.h : ℚ))
  match o.scaling with
  | .FixedHeight height =>
    { a_pos :=
        ((uv.1 * 2 - 1) * (height * (1 / 2) * ((img.w : ℚ) / (img.h : ℚ))),
         (uv.2 * 2 - 1) * (height * (1 / 2)),
         z * (o.thickness * (1 / 2)))
      a_uv := uv
      a_normal :=
        match normal? with
        | some n => (n.1, n.2, (0 : ℚ))
        | none => ((0 : ℚ), (0 : ℚ), (1 : ℚ)) }

/-- The density callback of `generate_mesh` (lib.rs line 113):
`cells[x as usize][y as usize]`.  A negative coordinate wraps to a huge
`usize` and a too-large index is out of range: both are index
out-of-bounds panics, embedded as `none`. -/
def cbCells (cells : List (List ℚ)) (p : ℤ × ℤ) : Option ℚ :=
  if p.1 < 0 ∨ p.2 < 0 then none
  else
    match cells[p.1.toNat]? with
    | none => none
    | some col => col[p.2.toNat]?

/-- The bounding box `Aabb2::ZERO.extend_positive(vec2(cells.len(),
cells[0].len()).map(|x| x as i32 - 1))` from lib.rs line 112. -/
def marchBB (gw gh : ℕ) : Aabb2z :=
  { min := (0, 0), max := ((gw : ℤ) - 1, (gh : ℤ) - 1) }

/-- `generate_mesh` from `lib.rs`: build the density grid, march it,
collect silhouette normals, and emit the assembled vertex stream.
Panics are embedded as `Except.error` with the Rust panic message:
`cell_size = 0` divides by zero in the grid allocation, and a zero-width
image leaves `cells` empty so `cells[0]` (line 112) is out of bounds.
`nrm` abstracts `normalize_or_zero` (see `normalPairs`). -/
def generateMesh (nrm : Vec2 → Vec2) (img : Img) (o : Options) :
    Except String (List Vertex) :=
  if o.cell_size = 0 then .error "attempt to divide by zero"
  else
    match cellsList img o.cell_size with
    | [] => .error "index out of bounds"
    | c0 :: rest =>
      match marchingTriangles (marchBB (c0 :: rest).length c0.length)
          (cbCells (c0 :: rest)) o.iso with
      | none => .error "index out of bounds"
      | some faces =>
        .ok ((assemble o faces).map (emitVertex (normalsTable nrm o.iso faces) o img))

/-- The 4×4 fully opaque image of the C2 scenario. -/
def imgOpaque4 : Img := ⟨4, 4, fun _ _ => ⟨255, 255, 255, 255⟩⟩

/-- The C2 scenario options: `cell_size = 4`, `iso = 0.5`,
`thickness = 0.1`, front and back faces enabled (the remaining fields at
their lib.rs defaults; the source has no side-wall toggle — side
vertices are emitted only for silhouette edges). -/
def opts4 : Options :=
  { cell_size := 4
    iso := 1 / 2
    normal_uv_offset := 2
    thickness := 1 / 10
    scaling := .FixedHeight 1
    front_face := true
    back_face := true }

/-- Default options with `cell_size = 1`. -/
def opts1 : Options := { defaultOptions with cell_size := 1 }

end SpriteShape

namespace SpriteShape

/-- C9: an output vertex whose contour position has no Normal Table
entry gets normal `(0,0,1)`; one with entry `(nx,ny)` gets
`(nx,ny,0)`; and the UV of an emitted vertex does not depend on its
face category (`z`), so front, back and side copies of one contour
vertex share the same normal-offset UV. -/
theorem claim_C9 (normals : List (Vec2 × Vec2)) (o : Options) (img : Img)
    (v : MarchVertex) :
    (btreeLookup v.pos normals = none →
      ∀ z : ℚ, (emitVertex normals o img (v, z)).a_normal = ((0 : ℚ), (0 : ℚ), (1 : ℚ))) ∧
    (∀ n : Vec2, btreeLookup v.pos normals = some n →
      ∀ z : ℚ, (emitVertex normals o img (v, z)).a_normal = (n.1, n.2, (0 : ℚ))) ∧
    (∀ z1 z2 : ℚ,
      (emitVertex normals o img (v, z1)).a_uv = (emitVertex normals o img (v, z2)).a_uv) := by
  refine ⟨?_, ?_, ?_⟩
  · intro h z
    cases hsc : o.scaling with
    | FixedHeight height => simp [emitVertex, hsc, h]
  · intro n h z
    cases hsc : o.scaling with
    | FixedHeight height => simp [emitVertex, hsc, h]
  · intro z1 z2
    cases hsc : o.scaling with
    | FixedHeight height => simp [emitVertex, hsc]

/-- Witness for C9: a one-entry table hit, a miss, and UV agreement of
the front (`z = 1`) and back (`z = -1`) copies. -/
theorem claim_C9_witness :
    (emitVertex [((((0 : ℚ), (0 : ℚ)) : Vec2), (((0 : ℚ), (1 : ℚ)) : Vec2))] opts4 imgOpaque4
        (⟨((0 : ℚ), (0 : ℚ)), 1 / 2⟩, 1)).a_normal = ((0 : ℚ), (1 : ℚ), (0 : ℚ)) ∧
    (emitVertex [] opts4 imgOpaque4 (⟨((0 : ℚ), (0 : ℚ)), 1 / 2⟩, 1)).a_normal =
      ((0 : ℚ), (0 : ℚ), (1 : ℚ)) ∧
    (emitVertex [] opts4 imgOpaque4 (⟨((0 : ℚ), (0 : ℚ)), 1 / 2⟩, 1)).a_uv =
      (emitVertex [] opts4 imgOpaque4 (⟨((0 : ℚ), (0 : ℚ)), 1 / 2⟩, -1)).a_uv :=
  ⟨(claim_C9 [((((0 : ℚ), (0 : ℚ)) : Vec2), (((0 : ℚ), (1 : ℚ)) : Vec2))] opts4 imgOpaque4
      ⟨((0 : ℚ), (0 : ℚ)), 1 / 2⟩).2.1 (((0 : ℚ), (1 : ℚ)) : Vec2) rfl 1,
   (claim_C9 [] opts4 imgOpaque4 ⟨((0 : ℚ), (0 : ℚ)), 1 / 2⟩).1 rfl 1,
   (claim_C9 [] opts4 imgOpaque4 ⟨((0 : ℚ), (0 : ℚ)), 1 / 2⟩).2.2 1 (-1)⟩

/-- Counterexample to C2 as stated: on the 4×4 fully opaque image with
`cell_size = 4`, `iso = 1/2`, `thickness = 1/10`, front+back enabled,
the mesh does NOT consist of 4 triangles (12 vertices) — the 1×1
density grid yields an empty marching region, hence an empty mesh. -/
theorem claim_C2_cex :
    ¬ ∃ l : List Vertex, generateMesh idNrm imgOpaque4 opts4 = Except.ok l ∧
      l.length = 12 ∧
      (∀ w ∈ l, (0 ≤ w.a_uv.1 ∧ w.a_uv.1 ≤ 1 ∧ 0 ≤ w.a_uv.2 ∧ w.a_uv.2 ≤ 1) ∧
        (w.a_pos.2.2 = 1 / 20 ∨ w.a_pos.2.2 = -(1 / 20))) := by
  rintro ⟨l, hl, hlen, _⟩
  have h : generateMesh idNrm imgOpaque4 opts4 = Except.ok [] := rfl
  rw [h] at hl
  obtain rfl : ([] : List Vertex) = l := by injection hl
  simp at hlen

/-- C2 (amended): on the C2 scenario input the generated mesh is empty:
the 4×4 image at `cell_size = 4` produces a 1×1 density grid, whose
marching bounding box `(0,0)..(0,0)` contains no unit cell, so no
triangles and no vertices are emitted. -/
theorem claim_C2 : generateMesh idNrm imgOpaque4 opts4 = Except.ok [] := rfl

/-- Counterexample to C4 as stated: the zero-area 1×0 image is NOT
rejected with an error — mesh generation succeeds and returns an empty
vertex list. -/
theorem claim_C4_cex :
    ¬ ∃ e : String,
      generateMesh idNrm ⟨1, 0, fun _ _ => ⟨0, 0, 0, 0⟩⟩ opts1 = Except.error e := by
  rintro ⟨e, he⟩
  have h : generateMesh idNrm ⟨1, 0, fun _ _ => ⟨0, 0, 0, 0⟩⟩ opts1 = Except.ok [] := rfl
  rw [h] at he
  cases he

/-- C4 (amended): `generate_mesh` performs no input validation.
`cell_size = 0` panics with a division by zero during grid allocation;
a zero-width image panics with an index out of bounds at `cells[0]`
(mid-processing, after the averaging loops); a zero-height image of
positive width is not rejected at all and silently yields an empty
mesh. -/
theorem claim_C4 :
    generateMesh idNrm imgOpaque4 { opts4 with cell_size := 0 } =
      Except.error "attempt to divide by zero" ∧
    generateMesh idNrm ⟨0, 1, fun _ _ => ⟨0, 0, 0, 0⟩⟩ opts1 =
      Except.error "index out of bounds" ∧
    generateMesh idNrm ⟨1, 0, fun _ _ => ⟨0, 0, 0, 0⟩⟩ opts1 = Except.ok [] :=
  ⟨rfl, rfl, rfl⟩

/-- Counterexample to C1 as stated: for the 4×4 opaque image at
`cell_size = 4` the grid is 1×1 and the bounding box actually marched is
`(0,0)..(0,0)` — not expanded by at least one cell on each side — and
evaluating the density callback outside the grid does not yield `0`: it
fails (a Rust index-out-of-bounds panic). -/
theorem claim_C1_cex :
    (cellsList imgOpaque4 4).length = 1 ∧
    (∀ c ∈ cellsList imgOpaque4 4, c.length = 1) ∧
    marchBB 1 1 = { min := ((0 : ℤ), (0 : ℤ)), max := ((0 : ℤ), (0 : ℤ)) } ∧
    ¬ ((marchBB 1 1).min.1 ≤ -1 ∧ (marchBB 1 1).min.2 ≤ -1) ∧
    cbCells (cellsList imgOpaque4 4) (-1, 0) = none ∧
    cbCells (cellsList imgOpaque4 4) (-1, 0) ≠ some 0 :=
  ⟨rfl, by decide, rfl, by decide, rfl, by decide⟩

end SpriteShape

namespace SpriteShape

lemma rangeZ_mem {a b x : ℤ} : x ∈ rangeZ a b ↔ a ≤ x ∧ x < b := by
  unfold rangeZ
  constructor
  · intro h
    obtain ⟨i, hi, hx⟩ := List.mem_map.mp h
    rw [List.mem_range] at hi
    omega
  · intro h
    exact List.mem_map.mpr ⟨(x - a).toNat, List.mem_range.mpr (by omega), by omega⟩

lemma foldlM_option_isSome {α β : Type} (l : List α) (f : β → α → Option β)
    (h : ∀ a ∈ l, ∀ b, (f b a).isSome) : ∀ init, (l.foldlM f init).isSome := by
  induction l with
  | nil =>
    intro init
    simp [List.foldlM_nil]
  | cons a l ih =>
    intro init
    rw [List.foldlM_cons]
    obtain ⟨b2, hb2⟩ := Option.isSome_iff_exists.mp (h a (by simp) init)
    rw [hb2]
    exact ih (fun a ha b => h a (by simp [ha]) b) b2

lemma mapM_option_isSome {α β : Type} (l : List α) (g : α → Option β)
    (h : ∀ a ∈ l, (g a).isSome) : (l.mapM g).isSome := by
  induction l with
  | nil => rfl
  | cons a l ih =>
    rw [List.mapM_cons]
    obtain ⟨b, hb⟩ := Option.isSome_iff_exists.mp (h a (by simp))
    rw [hb]
    obtain ⟨bs, hbs⟩ := Option.isSome_iff_exists.mp (ih (fun a ha => h a (by simp [ha])))
    rw [hbs]
    rfl

lemma processPair_isSome (f : ℤ × ℤ → Option ℚ) (iso : ℚ) (ia ib : ℤ × ℤ)
    (ha : (f ia).isSome) (hb : (f ib).isSome) : (processPair f iso ia ib).isSome := by
  unfold processPair
  obtain ⟨va, hva⟩ := Option.isSome_iff_exists.mp ha
  obtain ⟨vb, hvb⟩ := Option.isSome_iff_exists.mp hb
  rw [hva, hvb]
  rfl

lemma mem_rotateLeft_self {α : Type} {l : List α} {n : ℕ} {a : α}
    (h : a ∈ l.rotateLeft n) : a ∈ l := by
  by_cases hl : l.length ≤ 1
  · simpa [List.rotateLeft, hl] using h
  · simp only [List.rotateLeft, if_neg hl] at h
    rcases List.mem_append.mp h with h2 | h2
    · exact List.mem_of_mem_drop h2
    · exact List.mem_of_mem_take h2

lemma cyclicPairs_mem {α : Type} {l : List α} {ab : α × α} (h : ab ∈ cyclicPairs l) :
    ab.1 ∈ l ∧ ab.2 ∈ l := by
  unfold cyclicPairs at h
  obtain ⟨a, b⟩ := ab
  have h2 := List.of_mem_zip h
  exact ⟨h2.1, mem_rotateLeft_self h2.2⟩

lemma marchCell_isSome (f : ℤ × ℤ → Option ℚ) (iso : ℚ) (corners : List (ℤ × ℤ))
    (h : ∀ c ∈ corners, (f c).isSome) : (marchCell f iso corners).isSome := by
  unfold marchCell
  have hm : ((cyclicPairs corners).mapM fun p => processPair f iso p.1 p.2).isSome :=
    mapM_option_isSome _ _ fun ab hab =>
      processPair_isSome f iso ab.1 ab.2 (h _ (cyclicPairs_mem hab).1)
        (h _ (cyclicPairs_mem hab).2)
  obtain ⟨parts, hp⟩ := Option.isSome_iff_exists.mp hm
  rw [hp]
  rfl

lemma marchingTriangles_isSome (bb : Aabb2z) (f : ℤ × ℤ → Option ℚ) (iso : ℚ)
    (h : ∀ p : ℤ × ℤ, bb.min.1 ≤ p.1 → p.1 ≤ bb.max.1 → bb.min.2 ≤ p.2 →
      p.2 ≤ bb.max.2 → (f p).isSome) :
    (marchingTriangles bb f iso).isSome := by
  unfold marchingTriangles
  apply foldlM_option_isSome
  intro x hx acc
  apply foldlM_option_isSome
  intro y hy acc2
  obtain ⟨hx1, hx2⟩ := rangeZ_mem.mp hx
  obtain ⟨hy1, hy2⟩ := rangeZ_mem.mp hy
  have hcell : (marchCell f iso [(x, y), (x + 1, y), (x + 1, y + 1), (x, y + 1)]).isSome := by
    apply marchCell_isSome
    intro c hc
    simp only [List.mem_cons, List.not_mem_nil, or_false] at hc
    rcases hc with rfl | rfl | rfl | rfl <;>
      exact h _ (by omega) (by omega) (by omega) (by omega)
  obtain ⟨tris, ht⟩ := Option.isSome_iff_exists.mp hcell
  rw [ht]
  rfl

lemma cellsList_length (img : Img) (cs : ℕ) :
    (cellsList img cs).length = gridW img cs := by
  simp [cellsList]

lemma cellsList_cols (img : Img) (cs : ℕ) :
    ∀ c ∈ cellsList img cs, c.length = gridH img cs := by
  intro c hc
  simp only [cellsList, List.mem_map] at hc
  obtain ⟨cx, _, rfl⟩ := hc
  simp

lemma cbCells_isSome_of (cells : List (List ℚ)) (gh : ℕ)
    (hcols : ∀ c ∈ cells, c.length = gh) (p : ℤ × ℤ)
    (hx0 : 0 ≤ p.1) (hx1 : p.1 < (cells.length : ℤ))
    (hy0 : 0 ≤ p.2) (hy1 : p.2 < (gh : ℤ)) : (cbCells cells p).isSome := by
  unfold cbCells
  rw [if_neg (by omega)]
  have hxn : p.1.toNat < cells.length := by omega
  rw [List.getElem?_eq_getElem hxn]
  have hcol : cells[p.1.toNat].length = gh := hcols _ (List.getElem_mem hxn)
  have hyn : p.2.toNat < cells[p.1.toNat].length := by omega
  dsimp only
  rw [List.getElem?_eq_getElem hyn]
  rfl

/-- C1 (amended): the contour extraction is invoked over exactly the
grid's own corner index range `(0,0)..(gridW-1, gridH-1)` — NOT expanded
by a border ring — and every callback evaluation stays inside the grid,
so generation succeeds for every positive-width image and positive cell
size; sampling outside the grid is not defined to be 0 but fails (an
index-out-of-bounds panic), so edge-touching silhouettes are not closed
by a zero ring. -/
theorem claim_C1 (nrm : Vec2 → Vec2) (img : Img) (o : Options)
    (hcs : 0 < o.cell_size) (hw : 0 < img.w) :
    (∃ l, generateMesh nrm img o = Except.ok l) ∧
    marchBB (gridW img o.cell_size) (gridH img o.cell_size) =
      { min := (0, 0),
        max := ((gridW img o.cell_size : ℤ) - 1, (gridH img o.cell_size : ℤ) - 1) } ∧
    (∀ cells : List (List ℚ), ∀ p : ℤ × ℤ, p.1 < 0 ∨ p.2 < 0 → cbCells cells p = none) := by
  refine ⟨?_, rfl, ?_⟩
  · unfold generateMesh
    rw [if_neg (by omega)]
    have hlen := cellsList_length img o.cell_size
    have hpos : 0 < gridW img o.cell_size :=
      (Nat.le_div_iff_mul_le hcs).mpr (by omega)
    have hcols := cellsList_cols img o.cell_size
    cases hc : cellsList img o.cell_size with
    | nil =>
      rw [hc] at hlen
      simp at hlen
      omega
    | cons c0 rest =>
      rw [hc] at hcols
      have hc0len : c0.length = gridH img o.cell_size := hcols c0 (by simp)
      have hsome : (marchingTriangles (marchBB (c0 :: rest).length c0.length)
          (cbCells (c0 :: rest)) o.iso).isSome := by
        apply marchingTriangles_isSome
        intro p h1 h2 h3 h4
        simp only [marchBB] at h1 h2 h3 h4
        exact cbCells_isSome_of (c0 :: rest) c0.length (fun c hcm => by
            rw [hcols c hcm, hc0len]) p h1 (by omega) h3 (by omega)
      obtain ⟨faces, hf⟩ := Option.isSome_iff_exists.mp hsome
      dsimp only
      rw [hf]
      exact ⟨_, rfl⟩
  · intro cells p hp
    unfold cbCells
    rw [if_pos hp]

/-- Witness for C1 (amended): the 4×4 opaque image with the C2 options
succeeds, and the callback fails (is not `some 0`) outside the grid. -/
theorem claim_C1_witness :
    (∃ l, generateMesh idNrm imgOpaque4 opts4 = Except.ok l) ∧
    cbCells [[(1 : ℚ)]] (-1, 0) = none :=
  ⟨(claim_C1 idNrm imgOpaque4 opts4 (by decide) (by decide)).1,
   (claim_C1 idNrm imgOpaque4 opts4 (by decide) (by decide)).2.2 [[(1 : ℚ)]] (-1, 0)
     (by decide)⟩

end SpriteShape

namespace SpriteShape

/-- The largest finite `f32` value (`f32::MAX`), exactly. -/
def f32MAX : ℚ := 340282346638528859811704183484516925440

/-- `f32::MIN = -f32::MAX`. -/
def f32MIN : ℚ := -340282346638528859811704183484516925440

/-- `struct Vertex { position: [f32; 3], uv: [f32; 2] }` from `glb.rs`
(named apart from the mesh vertex). -/
structure GlbVertex where
  position : Vec3
  uv : Vec2
deriving DecidableEq, Repr

/-- `bounding_coords` from `glb.rs`: fold componentwise min/max over
the vertex positions starting from `([MAX; 3], [MIN; 3])`. -/
def bounding_coords (points : List GlbVertex) : Vec3 × Vec3 :=
  points.foldl
    (fun mm pt =>
      ((min mm.1.1 pt.position.1, min mm.1.2.1 pt.position.2.1,
        min mm.1.2.2 pt.position.2.2),
       (max mm.2.1 pt.position.1, max mm.2.2.1 pt.position.2.1,
        max mm.2.2.2 pt.position.2.2)))
    ((f32MAX, f32MAX, f32MAX), (f32MIN, f32MIN, f32MIN))

/-- The fragment of the glTF `Accessor` record that `save` fills for the
position accessor (glb.rs lines 124-139): the element count and the
optional min/max bounds. -/
structure Accessor where
  count : ℕ
  min : Option (List ℚ)
  max : Option (List ℚ)
deriving DecidableEq, Repr

/-- The position accessor pushed by `save`: `count = vertex_count`,
`min`/`max` always `Some` of the computed bounding coordinates. -/
def positionsAccessor (vertices : List GlbVertex) : Accessor :=
  { count := vertices.length
    min := some [(bounding_coords vertices).1.1, (bounding_coords vertices).1.2.1,
      (bounding_coords vertices).1.2.2]
    max := some [(bounding_coords vertices).2.1, (bounding_coords vertices).2.2.1,
      (bounding_coords vertices).2.2.2] }

/-- `align_to_multiple_of_four` from `glb.rs`: `(n + 3) & !3`. -/
def align_to_multiple_of_four (n : ℕ) : ℕ := (n + 3) / 4 * 4

/-- `to_padded_byte_vector` from `glb.rs`, at byte level: append zero
bytes until the length is a multiple of four. -/
def to_padded_byte_vector (bytes : List ℕ) : List ℕ :=
  bytes ++ List.replicate ((4 - bytes.length % 4) % 4) 0

/-- A `u32` in little-endian byte order. -/
def u32le (n : ℕ) : List ℕ :=
  [n % 256, n / 256 % 256, n / 65536 % 256, n / 16777216 % 256]

/-- Read back a little-endian `u32` at byte offset `off`. -/
def readU32le (l : List ℕ) (off : ℕ) : ℕ :=
  l.getD off 0 + 256 * (l.getD (off + 1) 0 +
    256 * (l.getD (off + 2) 0 + 256 * l.getD (off + 3) 0))

/-- The JSON chunk payload padded to four bytes with spaces (0x20). -/
def padJson (json : List ℕ) : List ℕ :=
  json ++ List.replicate ((4 - json.length % 4) % 4) 32

/-- The BIN chunk payload padded to four bytes with zeros. -/
def padBin (bin : List ℕ) : List ℕ :=
  bin ++ List.replicate ((4 - bin.length % 4) % 4) 0

/-- Total GLB byte length: 12-byte header plus both chunks, each with
an 8-byte chunk header. -/
def glbTotal (json bin : List ℕ) : ℕ :=
  12 + 8 + (padJson json).length + 8 + (padBin bin).length

/-- Modelled from the spec: the GLB container writer (`Glb::to_vec` of
the external `gltf` dependency; its code is not under `src/`).  Spec
§4.6: a 12-byte header (magic `glTF`, version 2, 4-byte little-endian
total length of header+metadata-block+binary-block), the metadata block
padded to a 4-byte boundary with trailing spaces, the binary block
padded to a 4-byte boundary with trailing zeros, and a total length
that does not fit in 32 bits is a fatal, surfaced error. -/
def glbToVec (json bin : List ℕ) : Except String (List ℕ) :=
  if 4294967295 < glbTotal json bin then
    .error "file size exceeds binary glTF limit"
  else
    .ok (([103, 108, 84, 70] ++ u32le 2) ++ (u32le (glbTotal json bin) ++
      ((u32le (padJson json).length ++ ([74, 83, 79, 78] ++ padJson json)) ++
       (u32le (padBin bin).length ++ ([66, 73, 78, 0] ++ padBin bin)))))

/-- The framing tail of `save` (glb.rs lines 243-259): pad the binary
buffer, check the declared size against the `u32` limit
(`try_into().expect(..)`), and emit the container. -/
def saveGlb (json rawBin : List ℕ) : Except String (List ℕ) :=
  if 4294967295 <
      align_to_multiple_of_four json.length + (to_padded_byte_vector rawBin).length then
    .error "file size exceeds binary glTF limit"
  else glbToVec json (to_padded_byte_vector rawBin)

lemma u32le_length (n : ℕ) : (u32le n).length = 4 := rfl

lemma padJson_length (json : List ℕ) :
    (padJson json).length = align_to_multiple_of_four json.length := by
  simp only [padJson, align_to_multiple_of_four, List.length_append,
    List.length_replicate]
  omega

lemma align4_mod (n : ℕ) : align_to_multiple_of_four n % 4 = 0 := by
  simp only [align_to_multiple_of_four]
  omega

lemma to_padded_length (l : List ℕ) :
    (to_padded_byte_vector l).length = l.length + (4 - l.length % 4) % 4 := by
  simp [to_padded_byte_vector]

lemma to_padded_mod (l : List ℕ) : (to_padded_byte_vector l).length % 4 = 0 := by
  rw [to_padded_length]
  omega

lemma padBin_length_of_aligned (b : List ℕ) (hb : b.length % 4 = 0) :
    (padBin b).length = b.length := by
  simp only [padBin, List.length_append, List.length_replicate]
  omega

lemma readU32le_write (l1 l2 : List ℕ) (n : ℕ) (hn : n ≤ 4294967295) :
    readU32le (l1 ++ (u32le n ++ l2)) l1.length = n := by
  have h0 : ∀ k : ℕ, k < 4 → (l1 ++ (u32le n ++ l2)).getD (l1.length + k) 0 =
      (u32le n).getD k 0 := by
    intro k hk
    rw [List.getD_append_right l1 _ 0 _ (by omega)]
    have he : l1.length + k - l1.length = k := by omega
    rw [he, List.getD_append _ _ _ _ (by rw [u32le_length]; omega)]
  have e0 : (l1 ++ (u32le n ++ l2)).getD l1.length 0 = (u32le n).getD 0 0 := by
    simpa using h0 0 (by omega)
  have e1 := h0 1 (by omega)
  have e2 := h0 2 (by omega)
  have e3 := h0 3 (by omega)
  unfold readU32le
  rw [e0, e1, e2, e3]
  show n % 256 + 256 * (n / 256 % 256 + 256 * (n / 65536 % 256 +
    256 * (n / 16777216 % 256))) = n
  omega

end SpriteShape

namespace SpriteShape

lemma align4_le (n : ℕ) : align_to_multiple_of_four n ≤ n + 3 := by
  simp only [align_to_multiple_of_four]
  omega

lemma padBin_length_le (b : List ℕ) : (padBin b).length ≤ b.length + 3 := by
  simp only [padBin, List.length_append, List.length_replicate]
  omega

/-- C3: whenever `save` emits a binary asset, the header's little-endian
length field (bytes 8..11) equals the total byte length of the emitted
asset (12-byte header + padded metadata chunk + padded binary chunk),
and both the metadata block and the binary block are padded to
multiples of 4 bytes. -/
theorem claim_C3 (json rawBin out : List ℕ)
    (h : saveGlb json rawBin = Except.ok out) :
    readU32le out 8 = out.length ∧
    out.length = 12 + (8 + align_to_multiple_of_four json.length) +
      (8 + (to_padded_byte_vector rawBin).length) ∧
    align_to_multiple_of_four json.length % 4 = 0 ∧
    (to_padded_byte_vector rawBin).length % 4 = 0 := by
  unfold saveGlb at h
  split at h
  · exact Except.noConfusion h
  · unfold glbToVec at h
    split at h
    · exact Except.noConfusion h
    · rename_i htot
      injection h with hout
      subst hout
      have hl1 : (([103, 108, 84, 70] : List ℕ) ++ u32le 2).length = 8 := rfl
      have hw := readU32le_write ([103, 108, 84, 70] ++ u32le 2)
        ((u32le (padJson json).length ++ ([74, 83, 79, 78] ++ padJson json)) ++
          (u32le (padBin (to_padded_byte_vector rawBin)).length ++
            ([66, 73, 78, 0] ++ padBin (to_padded_byte_vector rawBin))))
        (glbTotal json (to_padded_byte_vector rawBin)) (by omega)
      rw [hl1] at hw
      have hlen : (([103, 108, 84, 70] ++ u32le 2) ++
          (u32le (glbTotal json (to_padded_byte_vector rawBin)) ++
            ((u32le (padJson json).length ++ ([74, 83, 79, 78] ++ padJson json)) ++
             (u32le (padBin (to_padded_byte_vector rawBin)).length ++
               ([66, 73, 78, 0] ++ padBin (to_padded_byte_vector rawBin)))))).length =
          glbTotal json (to_padded_byte_vector rawBin) := by
        simp only [List.length_append, u32le_length, glbTotal, List.length_cons,
          List.length_nil]
        omega
      refine ⟨?_, ?_, align4_mod json.length, to_padded_mod rawBin⟩
      · rw [hw, hlen]
      · rw [hlen, glbTotal, padJson_length,
          padBin_length_of_aligned _ (to_padded_mod rawBin)]
        omega

/-- Witness for C3: a concrete two-byte metadata block and three-byte
binary payload. -/
theorem claim_C3_witness :
    readU32le ((saveGlb [123, 125] [1, 2, 3]).toOption.getD []) 8 =
      ((saveGlb [123, 125] [1, 2, 3]).toOption.getD []).length :=
  (claim_C3 [123, 125] [1, 2, 3]
    ((saveGlb [123, 125] [1, 2, 3]).toOption.getD []) rfl).1

/-- C10: on an empty vertex list `bounding_coords` returns
`min = [f32::MAX; 3]` and `max = [f32::MIN; 3]`; the emitted position
accessor still carries them as `Some` bounds (min componentwise greater
than max, since `f32::MIN < f32::MAX`), and serialization still
succeeds: the empty vertex buffer contributes zero padded bytes and the
container is emitted without error. -/
theorem claim_C10 :
    bounding_coords [] = ((f32MAX, f32MAX, f32MAX), (f32MIN, f32MIN, f32MIN)) ∧
    (positionsAccessor []).min = some [f32MAX, f32MAX, f32MAX] ∧
    (positionsAccessor []).max = some [f32MIN, f32MIN, f32MIN] ∧
    f32MIN < f32MAX ∧
    (∀ json imageBytes : List ℕ, json.length + imageBytes.length ≤ 1000000 →
      ∃ out, saveGlb json (to_padded_byte_vector ([] : List ℕ) ++ imageBytes) =
        Except.ok out) := by
  refine ⟨rfl, rfl, rfl, by norm_num [f32MIN, f32MAX], ?_⟩
  intro json imageBytes hlen
  have h1 : (to_padded_byte_vector ([] : List ℕ) ++ imageBytes).length =
      imageBytes.length := by
    simp [to_padded_byte_vector]
  have h2 := to_padded_length (to_padded_byte_vector ([] : List ℕ) ++ imageBytes)
  rw [h1] at h2
  have h3 := align4_le json.length
  unfold saveGlb
  rw [if_neg (by omega)]
  unfold glbToVec
  have h4 := padJson_length json
  have h5 := padBin_length_le (to_padded_byte_vector
    (to_padded_byte_vector ([] : List ℕ) ++ imageBytes))
  rw [if_neg (by rw [glbTotal]; omega)]
  exact ⟨_, rfl⟩

/-- Witness for C10: empty metadata and empty image bytes. -/
theorem claim_C10_witness :
    ∃ out, saveGlb [] (to_padded_byte_vector ([] : List ℕ) ++ []) = Except.ok out :=
  claim_C10.2.2.2.2 [] [] (by norm_num)

end SpriteShape

namespace SpriteShape

/-- Pixel coordinates. -/
abbrev Pos := ℕ × ℕ

/-- An RGBA color with float channels (`Rgba<f32>`). -/
abbrev RgbaF := ℚ × ℚ × ℚ × ℚ

/-- `Rgba::<f32>::BLUE`, the initial fill of `new_data`. -/
def BLUE : RgbaF := (0, 0, 1, 1)

/-- `Rgba<u8>::convert::<f32>()`: each channel divided by 255. -/
def convertColor (c : Rgba8) : RgbaF :=
  ((c.r : ℚ) / 255, (c.g : ℚ) / 255, (c.b : ℚ) / 255, (c.a : ℚ) / 255)

/-- In image bounds. -/
def inB (img : Img) (p : Pos) : Prop := p.1 < img.w ∧ p.2 < img.h

instance (img : Img) (p : Pos) : Decidable (inB img p) := by
  unfold inB; infer_instance

/-- All in-bounds positions. -/
def boundsFinset (img : Img) : Finset Pos :=
  Finset.range img.w ×ˢ Finset.range img.h

/-- Fully opaque pixel (`data.get(x, y).a == u8::MAX`). -/
def opaquePix (img : Img) (p : Pos) : Prop := (img.pix p.1 p.2).a = 255

/-- A BFS seed: an in-bounds fully opaque pixel. -/
def Seed (img : Img) (p : Pos) : Prop := inB img p ∧ opaquePix img p

/-- The seeding double loop of `fix_texture` (lib.rs lines 227-234):
every fully opaque pixel enters the queue paired with itself, in
x-major scan order. -/
def seedsQueue (img : Img) : List (Pos × Pos) :=
  (List.range img.w).flatMap fun x =>
    (List.range img.h).filterMap fun y =>
      if (img.pix x y).a = 255 then some (((x, y) : Pos), ((x, y) : Pos)) else none

/-- The neighbor offsets of lib.rs line 238, in source order. -/
def dirs : List (ℤ × ℤ) := [(-1, 0), (1, 0), (0, 1), (0, -1)]

/-- The neighbor candidate of lib.rs lines 239-243: `v + d`, rejected
(`continue`) when a coordinate is negative, with the cast to `usize`. -/
def nbOf (v : Pos) (d : ℤ × ℤ) : Option Pos :=
  if (v.1 : ℤ) + d.1 < 0 ∨ (v.2 : ℤ) + d.2 < 0 then none
  else some (((v.1 : ℤ) + d.1).toNat, ((v.2 : ℤ) + d.2).toNat)

/-- The per-direction body of the BFS loop (lib.rs lines 238-252):
skip negative, out-of-bounds, or already-visited neighbors; otherwise
push the neighbor with the same source and mark it visited at enqueue
time. -/
def pushNeighbor (img : Img) (src v : Pos)
    (st : List (Pos × Pos) × Finset Pos) (d : ℤ × ℤ) :
    List (Pos × Pos) × Finset Pos :=
  match nbOf v d with
  | none => st
  | some nu =>
    if img.w ≤ nu.1 ∨ img.h ≤ nu.2 then st
    else if nu ∈ st.2 then st
    else (st.1 ++ [(nu, src)], insert nu st.2)

lemma pushNeighbor_measure (img : Img) (src v : Pos)
    (st : List (Pos × Pos) × Finset Pos) (d : ℤ × ℤ) :
    (pushNeighbor img src v st d).1.length +
        2 * ((boundsFinset img) \ (pushNeighbor img src v st d).2).card ≤
      st.1.length + 2 * ((boundsFinset img) \ st.2).card := by
  unfold pushNeighbor
  split
  · exact le_refl _
  · rename_i nu hnu
    split
    · exact le_refl _
    · rename_i hb
      split
      · exact le_refl _
      · rename_i hvis
        have hmem : nu ∈ (boundsFinset img) \ st.2 := by
          rw [Finset.mem_sdiff]
          refine ⟨?_, hvis⟩
          simp only [boundsFinset, Finset.mem_product, Finset.mem_range]
          omega
        have hcard : ((boundsFinset img) \ insert nu st.2).card =
            ((boundsFinset img) \ st.2).card - 1 := by
          rw [Finset.sdiff_insert, Finset.card_erase_of_mem hmem]
        have hpos : 1 ≤ ((boundsFinset img) \ st.2).card :=
          Finset.card_pos.mpr ⟨nu, hmem⟩
        simp only [List.length_append, List.length_cons, List.length_nil]
        omega

lemma foldl_pushNeighbor_measure (img : Img) (src v : Pos) (ds : List (ℤ × ℤ)) :
    ∀ st : List (Pos × Pos) × Finset Pos,
    (ds.foldl (pushNeighbor img src v) st).1.length +
        2 * ((boundsFinset img) \ (ds.foldl (pushNeighbor img src v) st).2).card ≤
      st.1.length + 2 * ((boundsFinset img) \ st.2).card := by
  induction ds with
  | nil => intro st; exact le_refl _
  | cons d ds ih =>
    intro st
    rw [List.foldl_cons]
    exact le_trans (ih (pushNeighbor img src v st d))
      (pushNeighbor_measure img src v st d)

/-- The `while let Some(..) = queue.pop_front()` loop of `fix_texture`:
write the source's color at the popped position, then push the
unvisited in-bounds neighbors. -/
def bfsLoop (img : Img) : List (Pos × Pos) → Finset Pos → (Pos → RgbaF) → Pos → RgbaF
  | [], _, out => out
  | (v, src) :: rest, vis, out =>
    bfsLoop img (dirs.foldl (pushNeighbor img src v) (rest, vis)).1
      (dirs.foldl (pushNeighbor img src v) (rest, vis)).2
      (fun p => if p = v then convertColor (img.pix src.1 src.2) else out p)
termination_by q vis _ => q.length + 2 * ((boundsFinset img) \ vis).card
decreasing_by
  have h := foldl_pushNeighbor_measure img src v dirs (rest, vis)
  dsimp only at h ⊢
  simp only [List.length_cons]
  omega

/-- `fix_texture` from `lib.rs` as a function from positions to the
repaired color (`new_data` starts as all-BLUE). -/
def fixTexture (img : Img) : Pos → RgbaF :=
  bfsLoop img (seedsQueue img) ((seedsQueue img).map Prod.fst).toFinset fun _ => BLUE

end SpriteShape

namespace SpriteShape

/-- 4-connected adjacency between in-bounds pixels. -/
def adj (img : Img) (p q : Pos) : Prop :=
  inB img p ∧ inB img q ∧
    ((p.1 : ℤ) - q.1).natAbs + ((p.2 : ℤ) - q.2).natAbs = 1

/-- A 4-connected path of a given length between in-bounds pixels (the
pixel-graph geodesic structure of the image). -/
inductive Walk (img : Img) : Pos → Pos → ℕ → Prop where
  | refl (p : Pos) (h : inB img p) : Walk img p p 0
  | cons {p q r : Pos} {n : ℕ} (h : adj img p q) (hw : Walk img q r n) : Walk img p r (n + 1)

/-- Lengths of walks from some seed to `p`. -/
def seedDists (img : Img) (p : Pos) : Set ℕ :=
  {n | ∃ s, Seed img s ∧ Walk img s p n}

/-- The BFS (graph-geodesic) distance from the seed set.  A
specification-side notion only (not program code), mathematically
defined as the infimum of walk lengths. -/
noncomputable def bfsDist (img : Img) (p : Pos) : ℕ := sInf (seedDists img p)

/-- `s` is a graph-geodesically nearest fully opaque pixel to `p`. -/
def NearestSrc (img : Img) (s p : Pos) : Prop :=
  Seed img s ∧ ∃ n, Walk img s p n ∧
    ∀ s2 n2, Seed img s2 → Walk img s2 p n2 → n ≤ n2

lemma adj_symm {img : Img} {p q : Pos} (h : adj img p q) : adj img q p := by
  obtain ⟨h1, h2, h3⟩ := h
  exact ⟨h2, h1, by omega⟩

lemma walk_zero_eq {img : Img} {a b : Pos} (h : Walk img a b 0) : a = b := by
  cases h
  rfl

lemma walk_inB {img : Img} {a b : Pos} {n : ℕ} (h : Walk img a b n) :
    inB img a ∧ inB img b := by
  induction h with
  | refl p hp => exact ⟨hp, hp⟩
  | cons hadj _ ih => exact ⟨hadj.1, ih.2⟩

lemma walk_snoc {img : Img} {a b c : Pos} {n : ℕ} (h : Walk img a b n)
    (hbc : adj img b c) : Walk img a c (n + 1) := by
  induction h with
  | refl p hp => exact Walk.cons hbc (Walk.refl c hbc.2.1)
  | cons hadj _ ih => exact Walk.cons hadj (ih hbc)

lemma walk_append {img : Img} {a b c : Pos} {n m : ℕ} (h1 : Walk img a b n)
    (h2 : Walk img b c m) : Walk img a c (n + m) := by
  induction h1 with
  | refl p hp => simpa using h2
  | cons hadj _ ih => exact Nat.succ_add _ m ▸ Walk.cons hadj (ih h2)

lemma walk_snoc_view (img : Img) :
    ∀ n, ∀ a c : Pos, Walk img a c (n + 1) → ∃ b, Walk img a b n ∧ adj img b c := by
  intro n
  induction n with
  | zero =>
    intro a c h
    cases h with
    | cons hadj hw =>
      obtain rfl := walk_zero_eq hw
      exact ⟨a, Walk.refl a hadj.1, hadj⟩
  | succ k ih =>
    intro a c h
    cases h with
    | cons hadj hw =>
      obtain ⟨b, hb, hbc⟩ := ih _ _ hw
      exact ⟨b, Walk.cons hadj hb, hbc⟩

lemma bfsDist_le {img : Img} {p : Pos} {n : ℕ} (h : n ∈ seedDists img p) :
    bfsDist img p ≤ n := Nat.sInf_le h

lemma bfsDist_mem {img : Img} {p : Pos} (h : (seedDists img p).Nonempty) :
    bfsDist img p ∈ seedDists img p := Nat.sInf_mem h

lemma sorted_const {c : ℕ} {l : List ℕ} (h : ∀ x ∈ l, x = c) :
    l.Sorted (· ≤ ·) := by
  induction l with
  | nil => exact List.sorted_nil
  | cons a l ih =>
    rw [List.sorted_cons]
    refine ⟨fun b hb => ?_, ih fun x hx => h x (by simp [hx])⟩
    rw [h a (by simp), h b (by simp [hb])]

end SpriteShape

namespace SpriteShape

lemma adj_right {img : Img} {x y : ℕ} (h1 : x + 1 < img.w) (hy : y < img.h) :
    adj img (x, y) (x + 1, y) :=
  ⟨⟨by omega, hy⟩, ⟨h1, hy⟩, by omega⟩

lemma adj_up {img : Img} {x y : ℕ} (hx : x < img.w) (h1 : y + 1 < img.h) :
    adj img (x, y) (x, y + 1) :=
  ⟨⟨hx, by omega⟩, ⟨hx, h1⟩, by omega⟩

lemma walk_right (img : Img) (y : ℕ) (hy : y < img.h) :
    ∀ k x, x + k < img.w → Walk img (x, y) (x + k, y) k := by
  intro k
  induction k with
  | zero => intro x hx; exact Walk.refl (x, y) ⟨by omega, hy⟩
  | succ k ih =>
    intro x hx
    have hw : Walk img (x + 1, y) (x + 1 + k, y) k := ih (x + 1) (by omega)
    have he : x + 1 + k = x + (k + 1) := by omega
    rw [he] at hw
    exact Walk.cons (adj_right (by omega) hy) hw

lemma walk_left (img : Img) (y : ℕ) (hy : y < img.h) :
    ∀ k x, x + k < img.w → Walk img (x + k, y) (x, y) k := by
  intro k
  induction k with
  | zero => intro x hx; exact Walk.refl (x, y) ⟨by omega, hy⟩
  | succ k ih =>
    intro x hx
    have hw : Walk img (x + k, y) (x, y) k := ih x (by omega)
    have he : x + (k + 1) = (x + k) + 1 := by omega
    rw [he]
    exact Walk.cons (adj_symm (adj_right (by omega) hy)) hw

lemma walk_up (img : Img) (x : ℕ) (hx : x < img.w) :
    ∀ k y, y + k < img.h → Walk img (x, y) (x, y + k) k := by
  intro k
  induction k with
  | zero => intro y hy; exact Walk.refl (x, y) ⟨hx, by omega⟩
  | succ k ih =>
    intro y hy
    have hw : Walk img (x, y + 1) (x, y + 1 + k) k := ih (y + 1) (by omega)
    have he : y + 1 + k = y + (k + 1) := by omega
    rw [he] at hw
    exact Walk.cons (adj_up hx (by omega)) hw

lemma walk_down (img : Img) (x : ℕ) (hx : x < img.w) :
    ∀ k y, y + k < img.h → Walk img (x, y + k) (x, y) k := by
  intro k
  induction k with
  | zero => intro y hy; exact Walk.refl (x, y) ⟨hx, by omega⟩
  | succ k ih =>
    intro y hy
    have hw : Walk img (x, y + k) (x, y) k := ih y (by omega)
    have he : y + (k + 1) = (y + k) + 1 := by omega
    rw [he]
    exact Walk.cons (adj_symm (adj_up hx (by omega))) hw

lemma walk_horiz (img : Img) (x1 x2 y : ℕ) (h1 : x1 < img.w) (h2 : x2 < img.w)
    (hy : y < img.h) : ∃ n, Walk img (x1, y) (x2, y) n := by
  rcases le_total x1 x2 with h | h
  · have he : x1 + (x2 - x1) = x2 := by omega
    exact ⟨x2 - x1, by
      have hw := walk_right img y hy (x2 - x1) x1 (by omega)
      rw [he] at hw
      exact hw⟩
  · have he : x2 + (x1 - x2) = x1 := by omega
    exact ⟨x1 - x2, by
      have hw := walk_left img y hy (x1 - x2) x2 (by omega)
      rw [he] at hw
      exact hw⟩

lemma walk_vert (img : Img) (x y1 y2 : ℕ) (hx : x < img.w) (h1 : y1 < img.h)
    (h2 : y2 < img.h) : ∃ n, Walk img (x, y1) (x, y2) n := by
  rcases le_total y1 y2 with h | h
  · have he : y1 + (y2 - y1) = y2 := by omega
    exact ⟨y2 - y1, by
      have hw := walk_up img x hx (y2 - y1) y1 (by omega)
      rw [he] at hw
      exact hw⟩
  · have he : y2 + (y1 - y2) = y1 := by omega
    exact ⟨y1 - y2, by
      have hw := walk_down img x hx (y1 - y2) y2 (by omega)
      rw [he] at hw
      exact hw⟩

/-- Any two in-bounds pixels are 4-connected within the image. -/
lemma walk_exists (img : Img) (a b : Pos) (ha : inB img a) (hb : inB img b) :
    ∃ n, Walk img a b n := by
  obtain ⟨ax, ay⟩ := a
  obtain ⟨bx, byy⟩ := b
  obtain ⟨n1, h1⟩ := walk_horiz img ax bx ay ha.1 hb.1 ha.2
  obtain ⟨n2, h2⟩ := walk_vert img bx ay byy hb.1 ha.2 hb.2
  exact ⟨n1 + n2, walk_append h1 h2⟩

end SpriteShape

namespace SpriteShape

lemma foldl_push_char (img : Img) (src v : Pos) :
    ∀ (ds : List (ℤ × ℤ)) (q0 : List (Pos × Pos)) (vis0 : Finset Pos),
    ∃ pushed : List Pos,
      (ds.foldl (pushNeighbor img src v) (q0, vis0)).1 =
        q0 ++ pushed.map (fun u => (u, src)) ∧
      (ds.foldl (pushNeighbor img src v) (q0, vis0)).2 = vis0 ∪ pushed.toFinset ∧
      pushed.Nodup ∧
      (∀ u ∈ pushed, u ∉ vis0 ∧ inB img u ∧ ∃ d ∈ ds, nbOf v d = some u) ∧
      (∀ d ∈ ds, ∀ u : Pos, nbOf v d = some u → inB img u →
        u ∈ (ds.foldl (pushNeighbor img src v) (q0, vis0)).2) := by
  intro ds
  induction ds with
  | nil =>
    intro q0 vis0
    exact ⟨[], by simp, by simp, by simp, by simp, by simp⟩
  | cons d ds ih =>
    intro q0 vis0
    cases hnb : nbOf v d with
    | none =>
      have hstep : pushNeighbor img src v (q0, vis0) d = (q0, vis0) := by
        unfold pushNeighbor
        rw [hnb]
      rw [List.foldl_cons, hstep]
      obtain ⟨pushed, h1, h2, h3, h4, h5⟩ := ih q0 vis0
      refine ⟨pushed, h1, h2, h3, ?_, ?_⟩
      · intro u hu
        obtain ⟨ha, hb, d2, hd2, hnb2⟩ := h4 u hu
        exact ⟨ha, hb, d2, by simp [hd2], hnb2⟩
      · intro d2 hd2 u hnb2 hub
        rcases List.mem_cons.mp hd2 with rfl | hd2
        · rw [hnb] at hnb2
          exact Option.noConfusion hnb2
        · exact h5 d2 hd2 u hnb2 hub
    | some nu =>
      by_cases hob : img.w ≤ nu.1 ∨ img.h ≤ nu.2
      · have hstep : pushNeighbor img src v (q0, vis0) d = (q0, vis0) := by
          unfold pushNeighbor
          rw [hnb]
          dsimp only
          rw [if_pos hob]
        rw [List.foldl_cons, hstep]
        obtain ⟨pushed, h1, h2, h3, h4, h5⟩ := ih q0 vis0
        refine ⟨pushed, h1, h2, h3, ?_, ?_⟩
        · intro u hu
          obtain ⟨ha, hb, d2, hd2, hnb2⟩ := h4 u hu
          exact ⟨ha, hb, d2, by simp [hd2], hnb2⟩
        · intro d2 hd2 u hnb2 hub
          rcases List.mem_cons.mp hd2 with rfl | hd2
          · rw [hnb] at hnb2
            injection hnb2 with he
            subst he
            exact absurd hob (by
              obtain ⟨hb1, hb2⟩ := hub
              omega)
          · exact h5 d2 hd2 u hnb2 hub
      · by_cases hv : nu ∈ vis0
        · have hstep : pushNeighbor img src v (q0, vis0) d = (q0, vis0) := by
            unfold pushNeighbor
            rw [hnb]
            dsimp only
            rw [if_neg hob, if_pos hv]
          rw [List.foldl_cons, hstep]
          obtain ⟨pushed, h1, h2, h3, h4, h5⟩ := ih q0 vis0
          refine ⟨pushed, h1, h2, h3, ?_, ?_⟩
          · intro u hu
            obtain ⟨ha, hb, d2, hd2, hnb2⟩ := h4 u hu
            exact ⟨ha, hb, d2, by simp [hd2], hnb2⟩
          · intro d2 hd2 u hnb2 hub
            rcases List.mem_cons.mp hd2 with rfl | hd2
            · rw [hnb] at hnb2
              injection hnb2 with he
              subst he
              rw [h2]
              exact Finset.mem_union_left _ hv
            · exact h5 d2 hd2 u hnb2 hub
        · have hstep : pushNeighbor img src v (q0, vis0) d =
              (q0 ++ [(nu, src)], insert nu vis0) := by
            unfold pushNeighbor
            rw [hnb]
            dsimp only
            rw [if_neg hob, if_neg hv]
          rw [List.foldl_cons, hstep]
          obtain ⟨pushed2, h1, h2, h3, h4, h5⟩ := ih (q0 ++ [(nu, src)]) (insert nu vis0)
          refine ⟨nu :: pushed2, ?_, ?_, ?_, ?_, ?_⟩
          · rw [h1]
            simp
          · rw [h2, List.toFinset_cons, Finset.union_insert, Finset.insert_union]
          · refine List.Nodup.cons ?_ h3
            intro hc
            exact (h4 nu hc).1 (Finset.mem_insert_self nu vis0)
          · intro u hu
            rcases List.mem_cons.mp hu with rfl | hu
            · refine ⟨hv, by
                constructor <;> omega, d, List.mem_cons_self d ds, hnb⟩
            · obtain ⟨ha, hb, d2, hd2, hnb2⟩ := h4 u hu
              refine ⟨fun hc => ha (Finset.mem_insert_of_mem hc), hb, d2,
                by simp [hd2], hnb2⟩
          · intro d2 hd2 u hnb2 hub
            rcases List.mem_cons.mp hd2 with rfl | hd2
            · rw [hnb] at hnb2
              injection hnb2 with he
              rw [h2, ← he]
              exact Finset.mem_union_left _ (Finset.mem_insert_self nu vis0)
            · exact h5 d2 hd2 u hnb2 hub

end SpriteShape

namespace SpriteShape

lemma nbOf_coords {v u : Pos} {d : ℤ × ℤ} (h : nbOf v d = some u) :
    (u.1 : ℤ) = (v.1 : ℤ) + d.1 ∧ (u.2 : ℤ) = (v.2 : ℤ) + d.2 := by
  unfold nbOf at h
  split at h
  · exact Option.noConfusion h
  · rename_i hneg
    injection h with he
    subst he
    constructor <;> [skip; skip] <;> dsimp only <;> omega

lemma dirs_abs {d : ℤ × ℤ} (hd : d ∈ dirs) : d.1.natAbs + d.2.natAbs = 1 := by
  simp only [dirs, List.mem_cons, List.not_mem_nil, or_false] at hd
  rcases hd with rfl | rfl | rfl | rfl <;> decide

lemma nbOf_adj {img : Img} {v u : Pos} {d : ℤ × ℤ} (hd : d ∈ dirs)
    (h : nbOf v d = some u) (hv : inB img v) (hu : inB img u) : adj img v u := by
  have h1 := nbOf_coords h
  have h2 := dirs_abs hd
  exact ⟨hv, hu, by omega⟩

lemma adj_nbOf {img : Img} {v u : Pos} (h : adj img v u) :
    ∃ d ∈ dirs, nbOf v d = some u := by
  obtain ⟨hv, hu, habs⟩ := h
  refine ⟨((u.1 : ℤ) - v.1, (u.2 : ℤ) - v.2), ?_, ?_⟩
  · simp only [dirs, List.mem_cons, List.not_mem_nil, or_false, Prod.mk.injEq]
    omega
  · unfold nbOf
    rw [if_neg (by dsimp only; omega)]
    have e1 : ((v.1 : ℤ) + ((u.1 : ℤ) - (v.1 : ℤ))).toNat = u.1 := by omega
    have e2 : ((v.2 : ℤ) + ((u.2 : ℤ) - (v.2 : ℤ))).toNat = u.2 := by omega
    dsimp only
    rw [e1, e2]

/-- The BFS loop invariant: the queue covers the visited-but-unwritten
positions in nondecreasing distance order with spread at most one; every
entry carries a seed realizing its exact BFS distance; popped positions
have all neighbors visited and already hold their final color. -/
structure BfsInv (img : Img) (q : List (Pos × Pos)) (vis : Finset Pos)
    (out : Pos → RgbaF) : Prop where
  qsub : ∀ e ∈ q, e.1 ∈ vis
  qnodup : (q.map Prod.fst).Nodup
  visB : ∀ p ∈ vis, inB img p
  seedVis : ∀ s, Seed img s → s ∈ vis
  entry : ∀ e ∈ q, Seed img e.2 ∧ Walk img e.2 e.1 (bfsDist img e.1) ∧
    (Seed img e.1 → e.2 = e.1)
  sorted : (q.map fun e => bfsDist img e.1).Sorted (· ≤ ·)
  spread : ∀ e1 ∈ q, ∀ e2 ∈ q, bfsDist img e1.1 ≤ bfsDist img e2.1 + 1
  popClosure : ∀ p ∈ vis, p ∉ q.map Prod.fst → ∀ u, adj img p u → u ∈ vis
  outOk : ∀ p ∈ vis, p ∉ q.map Prod.fst →
    ∃ s, Seed img s ∧ Walk img s p (bfsDist img p) ∧
      out p = convertColor (img.pix s.1 s.2) ∧
      (Seed img p → out p = convertColor (img.pix p.1 p.2))

/-- Every walk from a seed to an unvisited position passes through the
queue frontier, so its length exceeds some queue entry's distance. -/
lemma frontier (img : Img) {q : List (Pos × Pos)} {vis : Finset Pos}
    (hseedVis : ∀ s, Seed img s → s ∈ vis)
    (hclosure : ∀ p ∈ vis, p ∉ q.map Prod.fst → ∀ u, adj img p u → u ∈ vis) :
    ∀ n, ∀ u : Pos, u ∉ vis → n ∈ seedDists img u →
      ∃ e ∈ q, bfsDist img e.1 + 1 ≤ n := by
  intro n
  induction n using Nat.strong_induction_on with
  | _ n ih =>
    intro u hu hn
    obtain ⟨s, hs, hw⟩ := hn
    cases n with
    | zero =>
      obtain rfl := walk_zero_eq hw
      exact absurd (hseedVis _ hs) hu
    | succ m =>
      obtain ⟨w, hws, hadj⟩ := walk_snoc_view img m s u hw
      by_cases hwv : w ∈ vis
      · by_cases hwq : w ∈ q.map Prod.fst
        · obtain ⟨e, he, he1⟩ := List.mem_map.mp hwq
          refine ⟨e, he, ?_⟩
          have hle : bfsDist img e.1 ≤ m := by
            rw [he1]
            exact bfsDist_le ⟨s, hs, hws⟩
          omega
        · exact absurd (hclosure w hwv hwq u hadj) hu
      · obtain ⟨e, he, hle⟩ := ih m (by omega) w hwv ⟨s, hs, hws⟩
        exact ⟨e, he, by omega⟩

end SpriteShape

namespace SpriteShape

lemma bfsInv_step (img : Img) (v src : Pos) (rest : List (Pos × Pos))
    (vis : Finset Pos) (out : Pos → RgbaF)
    (hInv : BfsInv img ((v, src) :: rest) vis out) :
    BfsInv img (dirs.foldl (pushNeighbor img src v) (rest, vis)).1
      (dirs.foldl (pushNeighbor img src v) (rest, vis)).2
      (fun p => if p = v then convertColor (img.pix src.1 src.2) else out p) := by
  obtain ⟨pushed, hq, hvis, hnodup, hprops, hcover⟩ := foldl_push_char img src v dirs rest vis
  have hvmem : v ∈ vis := hInv.qsub (v, src) (List.mem_cons_self _ _)
  have hvB : inB img v := hInv.visB v hvmem
  have hentryv := hInv.entry (v, src) (List.mem_cons_self _ _)
  have hdmin : ∀ e ∈ rest, bfsDist img v ≤ bfsDist img e.1 := by
    have hs := hInv.sorted
    rw [List.map_cons, List.sorted_cons] at hs
    intro e he
    exact hs.1 _ (List.mem_map_of_mem _ he)
  have hsprv : ∀ e ∈ rest, bfsDist img e.1 ≤ bfsDist img v + 1 := fun e he =>
    hInv.spread e (List.mem_cons_of_mem _ he) (v, src) (List.mem_cons_self _ _)
  have hpushedB : ∀ u ∈ pushed, inB img u := fun u hu => (hprops u hu).2.1
  have hpushedNotVis : ∀ u ∈ pushed, u ∉ vis := fun u hu => (hprops u hu).1
  have hpushedAdj : ∀ u ∈ pushed, adj img v u := by
    intro u hu
    obtain ⟨_, hb, d, hd, hnb⟩ := hprops u hu
    exact nbOf_adj hd hnb hvB hb
  have hpushedNotSeed : ∀ u ∈ pushed, ¬ Seed img u := fun u hu hs =>
    hpushedNotVis u hu (hInv.seedVis u hs)
  have hpushedDist : ∀ u ∈ pushed, bfsDist img u = bfsDist img v + 1 := by
    intro u hu
    have hup : bfsDist img v + 1 ∈ seedDists img u :=
      ⟨src, hentryv.1, walk_snoc hentryv.2.1 (hpushedAdj u hu)⟩
    have hmem := bfsDist_mem ⟨_, hup⟩
    obtain ⟨e, he, hle⟩ := frontier img hInv.seedVis hInv.popClosure
      (bfsDist img u) u (hpushedNotVis u hu) hmem
    have hge : bfsDist img v + 1 ≤ bfsDist img u := by
      rcases List.mem_cons.mp he with rfl | he2
      · simpa using hle
      · have := hdmin e he2
        omega
    exact le_antisymm (bfsDist_le hup) hge
  have hpushedWalk : ∀ u ∈ pushed, Walk img src u (bfsDist img u) := by
    intro u hu
    rw [hpushedDist u hu]
    exact walk_snoc hentryv.2.1 (hpushedAdj u hu)
  have hqpos : ((dirs.foldl (pushNeighbor img src v) (rest, vis)).1).map Prod.fst =
      rest.map Prod.fst ++ pushed := by
    rw [hq, List.map_append, List.map_map]
    have hid : (Prod.fst ∘ fun u : Pos => (u, src)) = id := rfl
    rw [hid, List.map_id]
  have hrestpos_vis : ∀ p ∈ rest.map Prod.fst, p ∈ vis := by
    intro p hp
    obtain ⟨e, he, rfl⟩ := List.mem_map.mp hp
    exact hInv.qsub e (List.mem_cons_of_mem _ he)
  have hbnd : ∀ e ∈ (dirs.foldl (pushNeighbor img src v) (rest, vis)).1,
      bfsDist img v ≤ bfsDist img e.1 ∧ bfsDist img e.1 ≤ bfsDist img v + 1 := by
    intro e he
    rw [hq] at he
    rcases List.mem_append.mp he with he | he
    · exact ⟨hdmin e he, hsprv e he⟩
    · obtain ⟨u, hu, rfl⟩ := List.mem_map.mp he
      rw [hpushedDist u hu]
      omega
  refine
    { qsub := ?_, qnodup := ?_, visB := ?_, seedVis := ?_, entry := ?_,
      sorted := ?_, spread := ?_, popClosure := ?_, outOk := ?_ }
  · intro e he
    rw [hq] at he
    rw [hvis]
    rcases List.mem_append.mp he with he | he
    · exact Finset.mem_union_left _ (hInv.qsub e (List.mem_cons_of_mem _ he))
    · obtain ⟨u, hu, rfl⟩ := List.mem_map.mp he
      exact Finset.mem_union_right _ (List.mem_toFinset.mpr hu)
  · rw [hqpos, List.nodup_append]
    refine ⟨?_, hnodup, ?_⟩
    · have h2 := hInv.qnodup
      rw [List.map_cons] at h2
      exact h2.of_cons
    · intro a ha hb
      exact hpushedNotVis a hb (hrestpos_vis a ha)
  · intro p hp
    rw [hvis] at hp
    rcases Finset.mem_union.mp hp with hp | hp
    · exact hInv.visB p hp
    · exact hpushedB p (List.mem_toFinset.mp hp)
  · intro s hs
    rw [hvis]
    exact Finset.mem_union_left _ (hInv.seedVis s hs)
  · intro e he
    rw [hq] at he
    rcases List.mem_append.mp he with he | he
    · exact hInv.entry e (List.mem_cons_of_mem _ he)
    · obtain ⟨u, hu, rfl⟩ := List.mem_map.mp he
      exact ⟨hentryv.1, hpushedWalk u hu, fun hs => absurd hs (hpushedNotSeed u hu)⟩
  · rw [hq, List.map_append, List.map_map]
    refine List.pairwise_append.mpr ⟨?_, ?_, ?_⟩
    · have hs := hInv.sorted
      rw [List.map_cons, List.sorted_cons] at hs
      exact hs.2
    · apply sorted_const (c := bfsDist img v + 1)
      intro x hx
      obtain ⟨u, hu, rfl⟩ := List.mem_map.mp hx
      exact hpushedDist u hu
    · intro a ha b hb
      obtain ⟨e, he, rfl⟩ := List.mem_map.mp ha
      obtain ⟨u, hu, rfl⟩ := List.mem_map.mp hb
      have h1 := hsprv e he
      have h2 := hpushedDist u hu
      show bfsDist img e.1 ≤ bfsDist img u
      omega
  · intro e1 he1 e2 he2
    have h1 := hbnd e1 he1
    have h2 := hbnd e2 he2
    omega
  · intro p hp hpq u hadj
    rw [hqpos] at hpq
    by_cases hpv : p = v
    · subst hpv
      obtain ⟨d, hd, hnb⟩ := adj_nbOf hadj
      exact hcover d hd u hnb hadj.2.1
    · rw [hvis] at hp ⊢
      have hpin : p ∈ vis := by
        rcases Finset.mem_union.mp hp with hp | hp
        · exact hp
        · exact absurd ((List.mem_append.mpr (Or.inr (List.mem_toFinset.mp hp)))) hpq
      have hnotq : p ∉ ((v, src) :: rest).map Prod.fst := by
        rw [List.map_cons]
        intro hc
        rcases List.mem_cons.mp hc with hc | hc
        · exact hpv hc
        · exact hpq (List.mem_append.mpr (Or.inl hc))
      exact Finset.mem_union_left _ (hInv.popClosure p hpin hnotq u hadj)
  · intro p hp hpq
    rw [hqpos] at hpq
    by_cases hpv : p = v
    · subst hpv
      refine ⟨src, hentryv.1, hentryv.2.1, by simp, ?_⟩
      intro hs
      have h2 : src = p := hentryv.2.2 hs
      simp [h2]
    · have hpin : p ∈ vis := by
        rw [hvis] at hp
        rcases Finset.mem_union.mp hp with hp | hp
        · exact hp
        · exact absurd ((List.mem_append.mpr (Or.inr (List.mem_toFinset.mp hp)))) hpq
      have hnotq : p ∉ ((v, src) :: rest).map Prod.fst := by
        rw [List.map_cons]
        intro hc
        rcases List.mem_cons.mp hc with hc | hc
        · exact hpv hc
        · exact hpq (List.mem_append.mpr (Or.inl hc))
      obtain ⟨s, hs1, hs2, hs3, hs4⟩ := hInv.outOk p hpin hnotq
      refine ⟨s, hs1, hs2, by simp [hpv, hs3], fun hsp => by simp [hpv, hs4 hsp]⟩

end SpriteShape

namespace SpriteShape

lemma seedsQueue_mem {img : Img} {e : Pos × Pos} :
    e ∈ seedsQueue img ↔ Seed img e.1 ∧ e.2 = e.1 := by
  unfold seedsQueue
  rw [List.mem_flatMap]
  constructor
  · rintro ⟨x, hx, he⟩
    rw [List.mem_filterMap] at he
    obtain ⟨y, hy, hif⟩ := he
    rw [List.mem_range] at hx
    rw [List.mem_range] at hy
    split at hif
    · rename_i hop
      injection hif with he2
      subst he2
      exact ⟨⟨⟨hx, hy⟩, hop⟩, rfl⟩
    · exact Option.noConfusion hif
  · rintro ⟨⟨⟨h1, h2⟩, hop⟩, he2⟩
    refine ⟨e.1.1, List.mem_range.mpr h1, ?_⟩
    rw [List.mem_filterMap]
    refine ⟨e.1.2, List.mem_range.mpr h2, ?_⟩
    rw [if_pos (show (img.pix e.1.1 e.1.2).a = 255 from hop)]
    exact congrArg some (Prod.ext rfl he2.symm)

lemma seedsQueue_nodup (img : Img) : ((seedsQueue img).map Prod.fst).Nodup := by
  have hinj : ∀ e1 ∈ seedsQueue img, ∀ e2 ∈ seedsQueue img,
      e1.1 = e2.1 → e1 = e2 := by
    intro e1 h1 e2 h2 he
    have q1 := (seedsQueue_mem.mp h1).2
    have q2 := (seedsQueue_mem.mp h2).2
    obtain ⟨a1, b1⟩ := e1
    obtain ⟨a2, b2⟩ := e2
    simp only at q1 q2 he
    rw [he, q1, q2, he]
  refine List.Nodup.map_on hinj ?_
  unfold seedsQueue
  rw [List.nodup_flatMap]
  constructor
  · intro x hx
    refine List.Nodup.filterMap ?_ (List.nodup_range _)
    intro y1 y2 e he1 he2
    split at he1
    · split at he2
      · rw [Option.mem_def] at he1 he2
        rw [← he2] at he1
        injection he1 with hp
        have := congrArg Prod.fst hp
        simpa using this
      · exact Option.noConfusion (Option.mem_def.mp he2)
    · exact Option.noConfusion (Option.mem_def.mp he1)
  · refine (List.pairwise_lt_range _).imp ?_
    intro x1 x2 hlt e he1 he2
    rw [List.mem_filterMap] at he1 he2
    obtain ⟨y1, _, hif1⟩ := he1
    obtain ⟨y2, _, hif2⟩ := he2
    split at hif1
    · split at hif2
      · injection hif1 with hp1
        injection hif2 with hp2
        rw [← hp1] at hp2
        have := congrArg (fun e : Pos × Pos => e.1.1) hp2
        simp only at this
        omega
      · exact Option.noConfusion hif2
    · exact Option.noConfusion hif1

lemma seed_dist_zero {img : Img} {s : Pos} (hs : Seed img s) : bfsDist img s = 0 :=
  Nat.eq_zero_of_le_zero (bfsDist_le ⟨s, hs, Walk.refl s hs.1⟩)

lemma bfsInv_init (img : Img) :
    BfsInv img (seedsQueue img) ((seedsQueue img).map Prod.fst).toFinset
      (fun _ => BLUE) := by
  have hmemvis : ∀ p : Pos, p ∈ ((seedsQueue img).map Prod.fst).toFinset ↔
      p ∈ (seedsQueue img).map Prod.fst := fun p => List.mem_toFinset
  refine
    { qsub := ?_, qnodup := seedsQueue_nodup img, visB := ?_, seedVis := ?_,
      entry := ?_, sorted := ?_, spread := ?_, popClosure := ?_, outOk := ?_ }
  · intro e he
    exact (hmemvis e.1).mpr (List.mem_map_of_mem _ he)
  · intro p hp
    obtain ⟨e, he, rfl⟩ := List.mem_map.mp ((hmemvis p).mp hp)
    exact (seedsQueue_mem.mp he).1.1
  · intro s hs
    refine (hmemvis s).mpr (List.mem_map.mpr ⟨(s, s), ?_, rfl⟩)
    exact seedsQueue_mem.mpr ⟨hs, rfl⟩
  · intro e he
    obtain ⟨hseed, hsnd⟩ := seedsQueue_mem.mp he
    rw [hsnd, seed_dist_zero hseed]
    exact ⟨hseed, Walk.refl e.1 hseed.1, fun _ => rfl⟩
  · apply sorted_const (c := 0)
    intro x hx
    obtain ⟨e, he, rfl⟩ := List.mem_map.mp hx
    exact seed_dist_zero (seedsQueue_mem.mp he).1
  · intro e1 h1 e2 h2
    rw [seed_dist_zero (seedsQueue_mem.mp h1).1]
    omega
  · intro p hp hpq u hadj
    exact absurd ((hmemvis p).mp hp) hpq
  · intro p hp hpq
    exact absurd ((hmemvis p).mp hp) hpq

lemma bfsLoop_base (img : Img) {vis : Finset Pos} {out : Pos → RgbaF}
    (hInv : BfsInv img [] vis out) (hs0 : ∃ s, Seed img s) (p : Pos)
    (hp : inB img p) :
    ∃ s, Seed img s ∧ Walk img s p (bfsDist img p) ∧
      out p = convertColor (img.pix s.1 s.2) ∧
      (Seed img p → out p = convertColor (img.pix p.1 p.2)) := by
  obtain ⟨s0, hs0⟩ := hs0
  have hclosed : ∀ a b n, Walk img a b n → a ∈ vis → b ∈ vis := by
    intro a b n hw
    induction hw with
    | refl q hq => exact id
    | cons hadj hw ih =>
      intro ha
      exact ih (hInv.popClosure _ ha (by simp) _ hadj)
  obtain ⟨n, hw⟩ := walk_exists img s0 p hs0.1 hp
  have hpv : p ∈ vis := hclosed s0 p n hw (hInv.seedVis s0 hs0)
  exact hInv.outOk p hpv (by simp)

lemma bfsLoop_spec (img : Img) (hs0 : ∃ s, Seed img s) :
    ∀ N (q : List (Pos × Pos)) (vis : Finset Pos) (out : Pos → RgbaF),
      q.length + 2 * ((boundsFinset img) \ vis).card ≤ N →
      BfsInv img q vis out → ∀ p, inB img p →
      ∃ s, Seed img s ∧ Walk img s p (bfsDist img p) ∧
        bfsLoop img q vis out p = convertColor (img.pix s.1 s.2) ∧
        (Seed img p → bfsLoop img q vis out p = convertColor (img.pix p.1 p.2)) := by
  intro N
  induction N with
  | zero =>
    intro q vis out hN hInv p hp
    cases q with
    | nil =>
      simp only [bfsLoop]
      exact bfsLoop_base img hInv hs0 p hp
    | cons e rest => simp at hN
  | succ N ih =>
    intro q vis out hN hInv p hp
    cases q with
    | nil =>
      simp only [bfsLoop]
      exact bfsLoop_base img hInv hs0 p hp
    | cons e rest =>
      obtain ⟨v, src⟩ := e
      have hstep := bfsInv_step img v src rest vis out hInv
      have hmeas := foldl_pushNeighbor_measure img src v dirs (rest, vis)
      simp only [bfsLoop]
      refine ih _ _ _ ?_ hstep p hp
      simp only [List.length_cons] at hN
      dsimp only at hmeas
      omega

/-- C8: for every image with at least one fully opaque pixel, every
in-bounds pixel of the repaired texture carries the color of one of its
graph-geodesically nearest (4-connected, within bounds) fully opaque
pixels, and a fully opaque pixel keeps its own color; for an image with
no fully opaque pixel, every pixel of the output is the sentinel fill
color BLUE. -/
theorem claim_C8 (img : Img) :
    ((∃ s, Seed img s) → ∀ p, inB img p →
      (∃ s, NearestSrc img s p ∧ fixTexture img p = convertColor (img.pix s.1 s.2)) ∧
      (opaquePix img p → fixTexture img p = convertColor (img.pix p.1 p.2))) ∧
    ((∀ s, ¬ Seed img s) → ∀ p, fixTexture img p = BLUE) := by
  constructor
  · intro hs0 p hp
    obtain ⟨s, hs, hw, hout, hop⟩ := bfsLoop_spec img hs0
      ((seedsQueue img).length +
        2 * ((boundsFinset img) \ ((seedsQueue img).map Prod.fst).toFinset).card)
      (seedsQueue img) ((seedsQueue img).map Prod.fst).toFinset (fun _ => BLUE)
      le_rfl (bfsInv_init img) p hp
    constructor
    · refine ⟨s, ⟨hs, bfsDist img p, hw, ?_⟩, hout⟩
      intro s2 n2 hs2 hw2
      exact bfsDist_le ⟨s2, hs2, hw2⟩
    · intro hopq
      exact hop ⟨hp, hopq⟩
  · intro h p
    have hnil : seedsQueue img = [] := by
      cases hq : seedsQueue img with
      | nil => rfl
      | cons e rest =>
        have hmem : e ∈ seedsQueue img := by
          rw [hq]
          exact List.mem_cons_self _ _
        exact absurd (seedsQueue_mem.mp hmem).1 (h e.1)
    rw [fixTexture, hnil]
    simp only [bfsLoop]

/-- Witness for C8: a 1×1 fully opaque image; the pixel is its own
nearest opaque source; and a 1×1 fully transparent image stays BLUE. -/
theorem claim_C8_witness :
    (∃ s, NearestSrc ⟨1, 1, fun _ _ => ⟨7, 8, 9, 255⟩⟩ s (0, 0) ∧
      fixTexture ⟨1, 1, fun _ _ => ⟨7, 8, 9, 255⟩⟩ (0, 0) =
        convertColor ((Img.mk 1 1 fun _ _ => ⟨7, 8, 9, 255⟩).pix s.1 s.2)) ∧
    fixTexture ⟨1, 1, fun _ _ => ⟨7, 8, 9, 0⟩⟩ (0, 0) = BLUE :=
  ⟨((claim_C8 ⟨1, 1, fun _ _ => ⟨7, 8, 9, 255⟩⟩).1
      ⟨(0, 0), ⟨by decide, by decide⟩, rfl⟩ (0, 0) ⟨by decide, by decide⟩).1,
   (claim_C8 ⟨1, 1, fun _ _ => ⟨7, 8, 9, 0⟩⟩).2
     (fun s hs => by
       have := hs.2
       unfold opaquePix at this
       simp at this) (0, 0)⟩

end SpriteShape
